import Mathlib

set_option maxHeartbeats 1000000

/-
Shallow embedding of pebble's wal/reader.go: segment discovery (listLogs)
and the virtual WAL reader (NextRecord / Close / nextFile).

External collaborators that reader.go consumes but that live outside the
sources at hand (the filename codec, the record envelope `record.Reader`,
the batch header decoder `batchrepr.ReadHeader`, and the `vfs` filesystem)
are modelled from the spec, and are marked as such in their doc comments.
-/

/-- A physical WAL segment: `segment` in reader.go. `dir` holds the
directory name; reader.go uses `dir.Dirname` together with the filesystem
handle, and the filesystem itself is modelled separately. -/
structure Segment where
  logNameIndex : Nat
  dir : String
deriving DecidableEq, Repr

/-- `logicalWAL` in reader.go: a logical WAL number together with its
constituent physical segment files, ordered by increasing logNameIndex. -/
structure LogicalWAL where
  numWAL : Nat
  segments : List Segment
deriving DecidableEq, Repr

/-- Little-endian value of a byte list (least significant byte first);
bytes are taken mod 256. -/
def leVal (bs : List Nat) : Nat := bs.foldr (fun b acc => b % 256 + 256 * acc) 0

/-- The decoded batch header: `batchrepr.Header`. -/
structure BatchHeader where
  seqNum : Nat
  count : Nat
deriving DecidableEq, Repr

/-- Modelled from the spec: `batchrepr.ReadHeader`, the batch header
decoder, is code of this repository outside the given sources. Per the
spec the header is a fixed 12-byte prefix of every record payload: an
8-byte little-endian sequence number followed by a 4-byte little-endian
count, and decoding fails exactly when the payload is shorter than the
header. -/
def readHeader (b : List Nat) : Option BatchHeader :=
  if b.length < 12 then none
  else some ⟨leVal (b.take 8), leVal ((b.drop 8).take 4)⟩

/-- Modelled from the spec: zero-pad the decimal numeral of `n` to `width`
characters. -/
def padNum (width n : Nat) : String :=
  let s := toString n
  String.mk (List.replicate (width - s.length) '0') ++ s

/-- Modelled from the spec: `makeLogFilename`, the filename codec, is code
of this repository outside the given sources. Per the spec, segment index
0 uses the compact form `<num>.log` and indices >= 1 embed the index as
`<num>-<idx>.log`, with fixed zero-padded widths. -/
def makeLogFilename (logNum : Nat) (idx : Nat) : String :=
  if idx = 0 then padNum 6 logNum ++ ".log"
  else padNum 6 logNum ++ "-" ++ padNum 3 idx ++ ".log"

/-- Modelled from the spec: `fs.PathJoin`. -/
def pathJoin (dir file : String) : String := dir ++ "/" ++ file

/-- One outcome of the record envelope adapter (`record.Reader.Next`
followed by the `io.Copy` into `recordBuf`): a fully framed record
payload, an invalid-record error (torn tail, checksum or framing
failure), or any other I/O error. After the listed events are exhausted
the envelope reports `io.EOF`. The envelope itself (`record.Reader`) is
external to reader.go and is modelled from the spec. -/
inductive EnvEvent where
  | record (payload : List Nat)
  | invalid
  | ioError
deriving DecidableEq, Repr

/-- The envelope-level view of one physical segment file: the events the
envelope yields in file order, each paired with the byte offset at which
it begins (what `record.Reader.Offset` reports before reading it), and
the offset reported once the file is exhausted. -/
structure SegFile where
  events : List (Nat × EnvEvent)
  endOff : Nat
deriving DecidableEq, Repr

/-- A virtual WAL under test: `logNum` and `segments` as passed to
`newVirtualWALReader`, plus `contents` giving, for each segment in the
same order, the envelope events of the physical file at that segment's
path (this stands for the filesystem the reader opens files from). -/
structure WALConfig where
  logNum : Nat
  segments : List Segment
  contents : List SegFile
deriving DecidableEq, Repr

/-- The mutable state of `virtualWALReader`. `readerPos` is the position
of `currReader` within the current segment's envelope events; `currFile`
is the open file handle, identified by the index of the segment it was
opened for (`none` models a nil `currFile`); `offFile` and `offPhysical`
are the fields of `r.off`. -/
structure ReaderState where
  currIndex : Int
  readerPos : Nat
  currFile : Option Nat
  offFile : String
  offPhysical : Nat
  lastSeqNum : Nat
deriving DecidableEq, Repr

/-- `wal.Offset` as used by reader.go: the current physical file path and
the byte position within it. -/
structure Offset where
  physicalFile : String
  physical : Nat
deriving DecidableEq, Repr

/-- The reader's current `r.off` as an `Offset` value. -/
def ReaderState.roff (s : ReaderState) : Offset := ⟨s.offFile, s.offPhysical⟩

/-- The errors `NextRecord` can return: `io.EOF` (end of stream), an
invalid-record envelope error, any other I/O error, or the batch-header
corruption error (which carries the WAL number and the logNameIndex of
the offending segment, as in the message reader.go formats). -/
inductive NextErr where
  | endOfStream
  | invalidRecord
  | ioError
  | corruption (logNum : Nat) (logNameIndex : Nat)
deriving DecidableEq, Repr

/-- The visible result of one `NextRecord` call: a record payload with
its `Offset`, or an error with the `Offset` value returned alongside it. -/
inductive NextOutcome where
  | record (payload : List Nat) (o : Offset)
  | err (o : Offset) (e : NextErr)
deriving DecidableEq, Repr

/-- Result of `virtualWALReader.nextFile`: ok, or io.EOF when
`currIndex` has moved past the last segment. Close and open errors of
the modelled filesystem are not represented (the model filesystem always
succeeds); closing is instead tracked as a list of closed handles. -/
inductive NextFileRes where
  | ok
  | eof
deriving DecidableEq, Repr

/-- `virtualWALReader.nextFile`. Returns the new state, the list of file
handles closed during the call, and whether io.EOF was returned. Mirrors
reader.go: close any open file and nil it out, increment `currIndex`,
return io.EOF if it reached `len(segments)`, otherwise set `off` to the
new segment's path at position 0 and open it (a fresh `record.Reader`
starts at event position 0). -/
def nextFile (cfg : WALConfig) (s : ReaderState) : ReaderState × List Nat × NextFileRes :=
  let closed : List Nat := match s.currFile with | some h => [h] | none => []
  let s1 : ReaderState := { s with currFile := none, currIndex := s.currIndex + 1 }
  if s1.currIndex ≥ (cfg.segments.length : Int) then
    (s1, closed, .eof)
  else
    let seg := cfg.segments.getD s1.currIndex.toNat ⟨0, ""⟩
    let path := pathJoin seg.dir (makeLogFilename cfg.logNum seg.logNameIndex)
    ({ s1 with readerPos := 0, currFile := some s1.currIndex.toNat,
               offFile := path, offPhysical := 0 }, closed, .ok)

/-- The handles `nextFile` closes for a state: the open one, if any
(identical to the `match` inside `nextFile`). -/
def closedOf (s : ReaderState) : List Nat :=
  match s.currFile with | some h => [h] | none => []

/-- The path of segment `i` of the virtual WAL, as `nextFile` computes it. -/
def segPath (cfg : WALConfig) (i : Nat) : String :=
  let seg := cfg.segments.getD i ⟨0, ""⟩
  pathJoin seg.dir (makeLogFilename cfg.logNum seg.logNameIndex)

/-- The envelope contents of the segment file the reader currently has
open (index `s.currIndex`). -/
def currFileContents (cfg : WALConfig) (s : ReaderState) : SegFile :=
  cfg.contents.getD s.currIndex.toNat ⟨[], 0⟩

/-- The envelope event (with its starting offset) that the next
`currReader.Next` call yields, or `none` for io.EOF. -/
def getEvent (cfg : WALConfig) (s : ReaderState) : Option (Nat × EnvEvent) :=
  (currFileContents cfg s).events.get? s.readerPos

/-- The envelope event of segment `i` at event position `pos` (the
filesystem view, independent of the reader state). -/
def eventAt (cfg : WALConfig) (i pos : Nat) : Option (Nat × EnvEvent) :=
  (cfg.contents.getD i ⟨[], 0⟩).events.get? pos

/-- The reader has a file open for a segment that exists, and `r.off`
names that segment's path: the invariant the loop maintains between
iterations once `nextFile` has succeeded. -/
def GoodS (cfg : WALConfig) (s : ReaderState) : Prop :=
  0 ≤ s.currIndex ∧ s.currIndex < (cfg.segments.length : Int) ∧
  s.offFile = segPath cfg s.currIndex.toNat

/-- Result of one iteration of the `NextRecord` loop body: continue
looping, or return to the caller with an outcome. Both carry the handles
closed during the iteration. -/
inductive StepRes where
  | cont (s : ReaderState) (closed : List Nat)
  | done (s : ReaderState) (closed : List Nat) (out : NextOutcome)
deriving DecidableEq, Repr

/-- The state a `StepRes` carries. -/
def StepRes.state : StepRes → ReaderState
  | .cont s _ => s
  | .done s _ _ => s

/-- Advance to the next segment file within the `NextRecord` loop: call
`nextFile` and surface its io.EOF as end of stream with the current
`r.off` (reader.go does this both after the envelope reports io.EOF and
after a swallowed invalid record). -/
def stepAdvance (cfg : WALConfig) (s1 : ReaderState) : StepRes :=
  match nextFile cfg s1 with
  | (s2, closed, .eof) => .done s2 closed (.err s2.roff .endOfStream)
  | (s2, closed, .ok) => .cont s2 closed

/-- The tail-corruption policy of reader.go: an invalid record is
swallowed (advance to the next file and continue) when a successor
segment exists, i.e. `currIndex < len(segments)-1`; in the final segment
the invalid-record error is surfaced unchanged. -/
def stepInvalid (cfg : WALConfig) (s1 : ReaderState) : StepRes :=
  if s1.currIndex < (cfg.segments.length : Int) - 1 then stepAdvance cfg s1
  else .done s1 [] (.err s1.roff .invalidRecord)

/-- The record path of the `NextRecord` loop body: parse the batch header
(failure is the corruption error naming `logNum` and the current
segment's logNameIndex), skip zero-count batches, skip batches whose
sequence number is at most `lastSeqNum`, otherwise record the sequence
number and return the record with the current `r.off`. -/
def stepRecord (cfg : WALConfig) (s1 : ReaderState) (payload : List Nat) : StepRes :=
  match readHeader payload with
  | none => .done s1 [] (.err s1.roff
      (.corruption cfg.logNum (cfg.segments.getD s1.currIndex.toNat ⟨0, ""⟩).logNameIndex))
  | some h =>
    if h.count = 0 then .cont s1 []
    else if h.seqNum ≤ s1.lastSeqNum then .cont s1 []
    else .done { s1 with lastSeqNum := h.seqNum } [] (.record payload s1.roff)

/-- One iteration of the `for` loop in `virtualWALReader.NextRecord`,
parameterized by the envelope event obtained for the current position
(see `stepIter`). Mirrors reader.go lines 165-249: update `off.Physical`
to the reader's offset; on io.EOF advance to the next file; on an
invalid record apply the tail-corruption policy; on any other error
surface it; on a framed record consume it (the reader position moves
past it) and run the record path. -/
def stepEv (cfg : WALConfig) (s : ReaderState) : Option (Nat × EnvEvent) → StepRes
  | none => stepAdvance cfg { s with offPhysical := (currFileContents cfg s).endOff }
  | some (off, ev) =>
    let s1 : ReaderState := { s with offPhysical := off, readerPos := s.readerPos + 1 }
    match ev with
    | .invalid => stepInvalid cfg s1
    | .ioError => .done s1 [] (.err s1.roff .ioError)
    | .record payload => stepRecord cfg s1 payload

/-- One iteration of the `NextRecord` loop at the current reader
position. -/
def stepIter (cfg : WALConfig) (s : ReaderState) : StepRes :=
  stepEv cfg s (getEvent cfg s)

/-- The `for` loop of `virtualWALReader.NextRecord`, with fuel to bound
the iteration count (`none` means the fuel ran out before the loop
returned; any fuel larger than the total number of envelope events plus
segments is enough). Accumulates the handles closed along the way. -/
def nextRecordLoop (cfg : WALConfig) : Nat → ReaderState → List Nat →
    ReaderState × List Nat × Option NextOutcome
  | 0, s, acc => (s, acc, none)
  | fuel + 1, s, acc =>
    match stepIter cfg s with
    | .cont s1 closed => nextRecordLoop cfg fuel s1 (acc ++ closed)
    | .done s1 closed out => (s1, acc ++ closed, some out)

/-- `virtualWALReader.NextRecord`: reset the record buffer (no observable
effect in this embedding), open the first file when `currIndex < 0`
(returning the zero `Offset` with io.EOF if there are no segments), then
run the loop. -/
def nextRecord (cfg : WALConfig) (fuel : Nat) (s : ReaderState) :
    ReaderState × List Nat × Option NextOutcome :=
  if s.currIndex < 0 then
    match nextFile cfg s with
    | (s1, closed, .eof) => (s1, closed, some (.err ⟨"", 0⟩ .endOfStream))
    | (s1, closed, .ok) => nextRecordLoop cfg fuel s1 closed
  else nextRecordLoop cfg fuel s []

/-- `newVirtualWALReader`: `currIndex` starts at -1, everything else
zero-valued (`lastSeqNum = 0`, no open file). -/
def initState : ReaderState :=
  { currIndex := -1, readerPos := 0, currFile := none,
    offFile := "", offPhysical := 0, lastSeqNum := 0 }

/-- `virtualWALReader.Close`: closes `currFile` when it is non-nil.
Faithful to reader.go, it does not set `currFile` to nil afterwards.
Returns the unchanged state and the list of handles closed by this call. -/
def closeReader (s : ReaderState) : ReaderState × List Nat :=
  match s.currFile with
  | some h => (s, [h])
  | none => (s, [])

/-- A session: `n` consecutive `NextRecord` calls starting from state
`s`, collecting the outcomes; stops early if the fuel runs out. -/
def runSession (cfg : WALConfig) (fuel : Nat) : Nat → ReaderState → List NextOutcome
  | 0, _ => []
  | n + 1, s =>
    match nextRecord cfg fuel s with
    | (s1, _, some o) => o :: runSession cfg fuel n s1
    | (_, _, none) => []

/-- The sequence number a session outcome delivered, when it is a record. -/
def outSeqNum : NextOutcome → Option Nat
  | .record p _ =>
    match readHeader p with
    | some h => some h.seqNum
    | none => none
  | .err _ _ => none

/-- The sequence numbers of the records a fresh reader's session returns,
in delivery order. -/
def sessionSeqNums (cfg : WALConfig) (fuel n : Nat) : List Nat :=
  (runSession cfg fuel n initState).filterMap outSeqNum

/-
Segment discovery: `listLogs` in reader.go.
-/

/-- Modelled from the spec: a directory entry as the filename codec sees
it. The codec (`parseLogFilename`) is code of this repository outside the
given sources; per the spec it recognizes exactly the segment filenames
it produces, extracting `(num_wal, segment_index)`, and reports every
other name as unrecognized. A recognized name is represented by the pair
it decodes to, an unrecognized one by its raw text. -/
inductive FName where
  | wal (numWAL : Nat) (idx : Nat)
  | other (name : String)
deriving DecidableEq, Repr

/-- Modelled from the spec: `parseLogFilename`. -/
def parseLogFilename : FName → Option (Nat × Nat)
  | .wal n i => some (n, i)
  | .other _ => none

/-- A directory as `listLogs` consumes it: `Dir` in reader.go bundled
with the result of `d.FS.List(d.Dirname)` — the entries when listing
succeeds, or a listing failure (`listFails`). -/
structure Dir where
  dirname : String
  entries : List FName
  listFails : Bool
deriving DecidableEq, Repr

/-- The errors `listLogs` can return: a directory listing failure
(wrapping the directory name), or the duplicate-logIndex error, which
carries the logIndex, the WAL number and the two directory names that
reader.go formats into the message. -/
inductive ListLogsError where
  | readDir (dirname : String)
  | duplicate (logNameIndex : Nat) (numWAL : Nat) (dir1 dir2 : String)
deriving DecidableEq, Repr

/-- Equality of `Except` results is decidable when both components are,
so concrete `listLogs` outcomes can be checked by evaluation. -/
instance {ε α : Type} [DecidableEq ε] [DecidableEq α] : DecidableEq (Except ε α) :=
  fun a b =>
    match a, b with
    | .ok x, .ok y =>
      if h : x = y then isTrue (by rw [h]) else isFalse (by intro hc; cases hc; exact h rfl)
    | .error x, .error y =>
      if h : x = y then isTrue (by rw [h]) else isFalse (by intro hc; cases hc; exact h rfl)
    | .ok _, .error _ => isFalse (by intro hc; cases hc)
    | .error _, .ok _ => isFalse (by intro hc; cases hc)

/-- Insertion of a segment into a logicalWAL's sorted segment list, as
the inner `slices.BinarySearchFunc` + `slices.Insert` of listLogs does
it: find the first slot whose logNameIndex is at least `li`; if an equal
index is already present, fail (returning the directory of the stored
segment, used to build the duplicate error); otherwise insert there. On
a sorted list this linear scan lands at exactly the binary search's
insertion point. -/
def insertSegment (dname : String) (li : Nat) : List Segment → Except String (List Segment)
  | [] => .ok [⟨li, dname⟩]
  | s :: rest =>
    if li < s.logNameIndex then .ok (⟨li, dname⟩ :: s :: rest)
    else if li = s.logNameIndex then .error s.dir
    else
      match insertSegment dname li rest with
      | .ok r => .ok (s :: r)
      | .error e => .error e

/-- Insertion of one recognized `(dfn, li)` entry from directory `dname`
into the sorted WAL list, as the body of listLogs does it: find (or
create) the logicalWAL for `dfn` at its sorted position, then insert the
segment into it; a duplicate logIndex yields the duplicate error naming
the current directory and the directory of the already-stored segment. -/
def insertWAL (dname : String) (dfn li : Nat) : List LogicalWAL → Except ListLogsError (List LogicalWAL)
  | [] => .ok [⟨dfn, [⟨li, dname⟩]⟩]
  | w :: rest =>
    if dfn < w.numWAL then .ok (⟨dfn, [⟨li, dname⟩]⟩ :: w :: rest)
    else if dfn = w.numWAL then
      match insertSegment dname li w.segments with
      | .ok segs => .ok (⟨w.numWAL, segs⟩ :: rest)
      | .error d2 => .error (.duplicate li dfn dname d2)
    else
      match insertWAL dname dfn li rest with
      | .ok r => .ok (w :: r)
      | .error e => .error e

/-- The inner `for _, name := range ls` loop of listLogs over one
directory's entries: skip unrecognized names, insert recognized ones. -/
def processEntries (dname : String) : List FName → List LogicalWAL → Except ListLogsError (List LogicalWAL)
  | [], wals => .ok wals
  | f :: rest, wals =>
    match parseLogFilename f with
    | none => processEntries dname rest wals
    | some (dfn, li) =>
      match insertWAL dname dfn li wals with
      | .ok wals1 => processEntries dname rest wals1
      | .error e => .error e

/-- The outer `for _, d := range dirs` loop of listLogs, threading the
accumulated WAL list. -/
def listLogsDirs : List Dir → List LogicalWAL → Except ListLogsError (List LogicalWAL)
  | [], wals => .ok wals
  | d :: rest, wals =>
    if d.listFails then .error (.readDir d.dirname)
    else
      match processEntries d.dirname d.entries wals with
      | .ok wals1 => listLogsDirs rest wals1
      | .error e => .error e

/-- `listLogs` in reader.go: scan the given directories and build the
ordered list of logical WALs. -/
def listLogs (dirs : List Dir) : Except ListLogsError (List LogicalWAL) :=
  listLogsDirs dirs []

/-- Directory `d` lists an entry that the filename codec recognizes as
the pair `p = (num_wal, segment_index)`. -/
def recognizes (d : Dir) (p : Nat × Nat) : Prop :=
  ∃ f ∈ d.entries, parseLogFilename f = some p

instance (d : Dir) (p : Nat × Nat) : Decidable (recognizes d p) := by
  unfold recognizes; infer_instance

/-- The pair `p = (num_wal, segment_index)` is present in a WAL list. -/
def pairMem (p : Nat × Nat) (wals : List LogicalWAL) : Prop :=
  ∃ w ∈ wals, w.numWAL = p.1 ∧ ∃ s ∈ w.segments, s.logNameIndex = p.2

instance (p : Nat × Nat) (wals : List LogicalWAL) : Decidable (pairMem p wals) := by
  unfold pairMem; infer_instance

/-- Sortedness of a WAL list as reader.go maintains it: WAL numbers
strictly increasing, and within each WAL the segment indices strictly
increasing. -/
def walsSorted (wals : List LogicalWAL) : Prop :=
  List.Pairwise (· < ·) (wals.map (·.numWAL)) ∧
  ∀ w ∈ wals, List.Pairwise (· < ·) (w.segments.map (·.logNameIndex))

/-
Concrete configurations used to exercise the theorems on closed inputs.
-/

/-- A 12-byte batch header with the given sequence number (< 65536) and
count (< 256), little-endian. -/
def hdrBytes (seq cnt : Nat) : List Nat :=
  [seq % 256, seq / 256 % 256, 0, 0, 0, 0, 0, 0, cnt % 256, 0, 0, 0]

/-- One segment, three batches (the spec's scenario A). -/
def cfgSingle : WALConfig :=
  { logNum := 7, segments := [⟨0, "pri"⟩],
    contents := [⟨[(0, .record (hdrBytes 10 1)), (23, .record (hdrBytes 11 2)),
                   (46, .record (hdrBytes 12 1))], 70⟩] }

/-- Failover seam with a duplicated batch (the spec's scenario B): seq 21
appears at the tail of segment 0 and the head of segment 1. -/
def cfgSeam : WALConfig :=
  { logNum := 8, segments := [⟨0, "pri"⟩, ⟨1, "sec"⟩],
    contents := [⟨[(0, .record (hdrBytes 20 1)), (23, .record (hdrBytes 21 1))], 50⟩,
                 ⟨[(0, .record (hdrBytes 21 1)), (23, .record (hdrBytes 22 1))], 50⟩] }

/-- A LogData-only batch (count 0) between two data batches (the spec's
scenario C). -/
def cfgLogData : WALConfig :=
  { logNum := 9, segments := [⟨0, "pri"⟩],
    contents := [⟨[(0, .record (hdrBytes 5 1)), (23, .record (hdrBytes 5 0)),
                   (40, .record (hdrBytes 6 1))], 70⟩] }

/-- Torn tail mid-WAL (the spec's scenario D): segment 0 ends in an
invalid record and has a successor. -/
def cfgTornMid : WALConfig :=
  { logNum := 10, segments := [⟨0, "pri"⟩, ⟨1, "sec"⟩],
    contents := [⟨[(0, .record (hdrBytes 30 1)), (23, .invalid)], 50⟩,
                 ⟨[(0, .record (hdrBytes 31 1))], 30⟩] }

/-- Torn tail in the final segment (the spec's scenario E). -/
def cfgTornFinal : WALConfig :=
  { logNum := 11, segments := [⟨0, "pri"⟩],
    contents := [⟨[(0, .record (hdrBytes 30 1)), (23, .invalid)], 50⟩] }

/-- A record shorter than the batch header in a non-final segment. -/
def cfgShortRec : WALConfig :=
  { logNum := 12, segments := [⟨0, "pri"⟩, ⟨1, "sec"⟩],
    contents := [⟨[(0, .record [1, 2, 3])], 20⟩, ⟨[], 0⟩] }

/-- Two segments with no returnable records at all (only EOF trailers). -/
def cfgEmptySegs : WALConfig :=
  { logNum := 13, segments := [⟨0, "pri"⟩, ⟨1, "sec"⟩],
    contents := [⟨[], 11⟩, ⟨[], 7⟩] }

/-- A batch whose header encodes sequence number 0 with a positive
count, followed by a normal batch. -/
def cfgSeqZero : WALConfig :=
  { logNum := 14, segments := [⟨0, "pri"⟩],
    contents := [⟨[(0, .record (hdrBytes 0 3)), (23, .record (hdrBytes 4 1))], 40⟩] }

/-
Helper lemmas about the reader's step functions.
-/

theorem nextFile_def (cfg : WALConfig) (s : ReaderState) :
    nextFile cfg s =
      if (cfg.segments.length : Int) ≤ s.currIndex + 1 then
        ({ s with currFile := none, currIndex := s.currIndex + 1 },
         (match s.currFile with | some h => [h] | none => []), .eof)
      else
        ({ s with currFile := some (s.currIndex + 1).toNat, currIndex := s.currIndex + 1,
                  readerPos := 0, offFile := segPath cfg (s.currIndex + 1).toNat,
                  offPhysical := 0 },
         (match s.currFile with | some h => [h] | none => []), .ok) := rfl

theorem nextFile_fst_lastSeqNum (cfg : WALConfig) (s : ReaderState) :
    ((nextFile cfg s).1).lastSeqNum = s.lastSeqNum := by
  rw [nextFile_def]; split <;> rfl

theorem nextFile_fst_currIndex (cfg : WALConfig) (s : ReaderState) :
    ((nextFile cfg s).1).currIndex = s.currIndex + 1 := by
  rw [nextFile_def]; split <;> rfl

theorem nextFile_eof_iff (cfg : WALConfig) (s : ReaderState) :
    (nextFile cfg s).2.2 = NextFileRes.eof ↔ (cfg.segments.length : Int) ≤ s.currIndex + 1 := by
  rw [nextFile_def]; split <;> simp_all

theorem nextFile_eof_state (cfg : WALConfig) (s : ReaderState)
    (h : (cfg.segments.length : Int) ≤ s.currIndex + 1) :
    (nextFile cfg s).1 = { s with currFile := none, currIndex := s.currIndex + 1 } := by
  rw [nextFile_def]; simp [h]

theorem nextFile_ok_state (cfg : WALConfig) (s : ReaderState)
    (h : ¬ (cfg.segments.length : Int) ≤ s.currIndex + 1) :
    (nextFile cfg s).1 =
      { s with currFile := some (s.currIndex + 1).toNat, currIndex := s.currIndex + 1,
               readerPos := 0, offFile := segPath cfg (s.currIndex + 1).toNat,
               offPhysical := 0 } := by
  rw [nextFile_def]; simp [h]

theorem stepAdvance_cont (cfg : WALConfig) (s1 s2 : ReaderState) (cl : List Nat)
    (h : stepAdvance cfg s1 = .cont s2 cl) : nextFile cfg s1 = (s2, cl, .ok) := by
  unfold stepAdvance at h
  rcases hn : nextFile cfg s1 with ⟨s3, cl3, res⟩
  rw [hn] at h
  cases res <;> simp_all

theorem stepAdvance_done (cfg : WALConfig) (s1 s2 : ReaderState) (cl : List Nat)
    (out : NextOutcome) (h : stepAdvance cfg s1 = .done s2 cl out) :
    nextFile cfg s1 = (s2, cl, .eof) ∧ out = .err s2.roff .endOfStream := by
  unfold stepAdvance at h
  rcases hn : nextFile cfg s1 with ⟨s3, cl3, res⟩
  rw [hn] at h
  cases res
  · simp at h
  · simp only [StepRes.done.injEq] at h
    obtain ⟨h1, h2, h3⟩ := h
    subst h1; subst h2; subst h3
    exact ⟨rfl, rfl⟩

theorem stepInvalid_lt (cfg : WALConfig) (s1 : ReaderState)
    (h : s1.currIndex < (cfg.segments.length : Int) - 1) :
    stepInvalid cfg s1 = stepAdvance cfg s1 := by
  unfold stepInvalid; rw [if_pos h]

theorem stepInvalid_ge (cfg : WALConfig) (s1 : ReaderState)
    (h : ¬ s1.currIndex < (cfg.segments.length : Int) - 1) :
    stepInvalid cfg s1 = .done s1 [] (.err s1.roff .invalidRecord) := by
  unfold stepInvalid; rw [if_neg h]

theorem stepRecord_noHeader (cfg : WALConfig) (s1 : ReaderState) (payload : List Nat)
    (h : readHeader payload = none) :
    stepRecord cfg s1 payload = .done s1 [] (.err s1.roff
      (.corruption cfg.logNum (cfg.segments.getD s1.currIndex.toNat ⟨0, ""⟩).logNameIndex)) := by
  unfold stepRecord; rw [h]

theorem stepRecord_header (cfg : WALConfig) (s1 : ReaderState) (payload : List Nat)
    (hd : BatchHeader) (h : readHeader payload = some hd) :
    stepRecord cfg s1 payload =
      if hd.count = 0 then .cont s1 []
      else if hd.seqNum ≤ s1.lastSeqNum then .cont s1 []
      else .done { s1 with lastSeqNum := hd.seqNum } [] (.record payload s1.roff) := by
  unfold stepRecord; rw [h]

theorem stepEv_none (cfg : WALConfig) (s : ReaderState) :
    stepEv cfg s none =
      stepAdvance cfg { s with offPhysical := (currFileContents cfg s).endOff } := rfl

theorem stepEv_invalid (cfg : WALConfig) (s : ReaderState) (o : Nat) :
    stepEv cfg s (some (o, .invalid)) =
      stepInvalid cfg { s with offPhysical := o, readerPos := s.readerPos + 1 } := rfl

theorem stepEv_ioError (cfg : WALConfig) (s : ReaderState) (o : Nat) :
    stepEv cfg s (some (o, .ioError)) =
      .done { s with offPhysical := o, readerPos := s.readerPos + 1 } []
        (.err ({ s with offPhysical := o, readerPos := s.readerPos + 1 } : ReaderState).roff
          .ioError) := rfl

theorem stepEv_record (cfg : WALConfig) (s : ReaderState) (o : Nat) (payload : List Nat) :
    stepEv cfg s (some (o, .record payload)) =
      stepRecord cfg { s with offPhysical := o, readerPos := s.readerPos + 1 } payload := rfl

/-- Case analysis entry: `stepIter` at a given event. -/
theorem stepIter_ev (cfg : WALConfig) (s : ReaderState) :
    stepIter cfg s = stepEv cfg s (getEvent cfg s) := rfl

theorem nextFile_ok_iff (cfg : WALConfig) (s : ReaderState) :
    (nextFile cfg s).2.2 = NextFileRes.ok ↔ ¬ (cfg.segments.length : Int) ≤ s.currIndex + 1 := by
  rw [nextFile_def]; split <;> simp_all

/-- A loop iteration that continues never changes `lastSeqNum`. -/
theorem step_cont_state (cfg : WALConfig) (s s2 : ReaderState) (cl : List Nat)
    (h : stepIter cfg s = .cont s2 cl) :
    s2.lastSeqNum = s.lastSeqNum ∧
    ((s2.currIndex = s.currIndex ∧ s2.offFile = s.offFile ∧ s2.currFile = s.currFile ∧
        cl = [] ∧ s2.readerPos = s.readerPos + 1) ∨
     (s2.currIndex = s.currIndex + 1 ∧ s2.currIndex < (cfg.segments.length : Int) ∧
        s2.offFile = segPath cfg s2.currIndex.toNat ∧ s2.readerPos = 0 ∧
        s2.currFile = some s2.currIndex.toNat)) := by
  rw [stepIter_ev] at h
  rcases hev : getEvent cfg s with _ | ⟨o, ev⟩ <;> rw [hev] at h
  · rw [stepEv_none] at h
    have hn := stepAdvance_cont _ _ _ _ h
    have hok : ¬ (cfg.segments.length : Int) ≤ s.currIndex + 1 := by
      have hmp := (nextFile_ok_iff cfg { s with offPhysical := (currFileContents cfg s).endOff }).mp
      rw [hn] at hmp
      exact hmp rfl
    have hst := nextFile_ok_state cfg { s with offPhysical := (currFileContents cfg s).endOff } hok
    rw [hn] at hst
    dsimp only at hst
    subst hst
    exact ⟨rfl, Or.inr ⟨rfl, by dsimp only; omega, rfl, rfl, rfl⟩⟩
  · cases ev with
    | record payload =>
      rw [stepEv_record] at h
      rcases hh : readHeader payload with _ | hd
      · rw [stepRecord_noHeader _ _ _ hh] at h; simp at h
      · rw [stepRecord_header _ _ _ _ hh] at h
        split_ifs at h with h1 h2 <;> cases h <;>
          exact ⟨rfl, Or.inl ⟨rfl, rfl, rfl, rfl, rfl⟩⟩
    | invalid =>
      rw [stepEv_invalid] at h
      by_cases hc : ({ s with offPhysical := o, readerPos := s.readerPos + 1 } :
          ReaderState).currIndex < (cfg.segments.length : Int) - 1
      · rw [stepInvalid_lt _ _ hc] at h
        have hn := stepAdvance_cont _ _ _ _ h
        have hok : ¬ (cfg.segments.length : Int) ≤ s.currIndex + 1 := by
          dsimp only at hc
          omega
        have hst := nextFile_ok_state cfg
          { s with offPhysical := o, readerPos := s.readerPos + 1 } hok
        rw [hn] at hst
        dsimp only at hst
        subst hst
        exact ⟨rfl, Or.inr ⟨rfl, by dsimp only; omega, rfl, rfl, rfl⟩⟩
      · rw [stepInvalid_ge _ _ hc] at h; simp at h
    | ioError => rw [stepEv_ioError] at h; simp at h

/-- Full characterization of an iteration that returns a record to the
caller: the envelope yielded a framed record at the current position,
its header parsed with a nonzero count and a sequence number above
`lastSeqNum`, and the state advanced past it, recording the sequence
number; the outcome's offset is where the record begins in the current
file. -/
theorem step_done_record_facts (cfg : WALConfig) (s s2 : ReaderState) (cl : List Nat)
    (p : List Nat) (o : Offset) (h : stepIter cfg s = .done s2 cl (.record p o)) :
    ∃ off hd, getEvent cfg s = some (off, .record p) ∧ readHeader p = some hd ∧
      hd.count ≠ 0 ∧ s.lastSeqNum < hd.seqNum ∧ cl = [] ∧ o = ⟨s.offFile, off⟩ ∧
      s2.currIndex = s.currIndex ∧ s2.readerPos = s.readerPos + 1 ∧
      s2.currFile = s.currFile ∧ s2.offFile = s.offFile ∧ s2.offPhysical = off ∧
      s2.lastSeqNum = hd.seqNum := by
  rw [stepIter_ev] at h
  rcases hev : getEvent cfg s with _ | ⟨o2, ev⟩ <;> rw [hev] at h
  · rw [stepEv_none] at h
    obtain ⟨-, habs⟩ := stepAdvance_done _ _ _ _ _ h
    simp at habs
  · cases ev with
    | record payload =>
      rw [stepEv_record] at h
      rcases hh : readHeader payload with _ | hd
      · rw [stepRecord_noHeader _ _ _ hh] at h
        cases h
      · rw [stepRecord_header _ _ _ _ hh] at h
        split_ifs at h with h1 h2 <;> cases h
        refine ⟨o2, hd, rfl, hh, h1, ?_, rfl, rfl, rfl, rfl, rfl, rfl, rfl, rfl⟩
        dsimp only at h2
        omega
    | invalid =>
      rw [stepEv_invalid] at h
      by_cases hc : ({ s with offPhysical := o2, readerPos := s.readerPos + 1 } :
          ReaderState).currIndex < (cfg.segments.length : Int) - 1
      · rw [stepInvalid_lt _ _ hc] at h
        obtain ⟨-, habs⟩ := stepAdvance_done _ _ _ _ _ h
        simp at habs
      · rw [stepInvalid_ge _ _ hc] at h
        cases h
    | ioError => rw [stepEv_ioError] at h; cases h

/-- An iteration that surfaces an error never changes `lastSeqNum`. -/
theorem step_done_err_lastSeqNum (cfg : WALConfig) (s s2 : ReaderState) (cl : List Nat)
    (o : Offset) (e : NextErr) (h : stepIter cfg s = .done s2 cl (.err o e)) :
    s2.lastSeqNum = s.lastSeqNum := by
  rw [stepIter_ev] at h
  rcases hev : getEvent cfg s with _ | ⟨o2, ev⟩ <;> rw [hev] at h
  · rw [stepEv_none] at h
    obtain ⟨hn, -⟩ := stepAdvance_done _ _ _ _ _ h
    have hl := nextFile_fst_lastSeqNum cfg
      { s with offPhysical := (currFileContents cfg s).endOff }
    rw [hn] at hl
    exact hl
  · cases ev with
    | record payload =>
      rw [stepEv_record] at h
      rcases hh : readHeader payload with _ | hd
      · rw [stepRecord_noHeader _ _ _ hh] at h
        cases h
        rfl
      · rw [stepRecord_header _ _ _ _ hh] at h
        split_ifs at h with h1 h2 <;> cases h
    | invalid =>
      rw [stepEv_invalid] at h
      by_cases hc : ({ s with offPhysical := o2, readerPos := s.readerPos + 1 } :
          ReaderState).currIndex < (cfg.segments.length : Int) - 1
      · rw [stepInvalid_lt _ _ hc] at h
        obtain ⟨hn, -⟩ := stepAdvance_done _ _ _ _ _ h
        have hl := nextFile_fst_lastSeqNum cfg
          { s with offPhysical := o2, readerPos := s.readerPos + 1 }
        rw [hn] at hl
        exact hl
      · rw [stepInvalid_ge _ _ hc] at h
        cases h
        rfl
    | ioError =>
      rw [stepEv_ioError] at h
      cases h
      rfl

/-- An iteration that returns end of stream did so because `nextFile`
moved `currIndex` past the last segment (closing and nilling the open
file on the way); the offset returned is the reader's current one. -/
theorem step_done_eos (cfg : WALConfig) (s s2 : ReaderState) (cl : List Nat) (o : Offset)
    (h : stepIter cfg s = .done s2 cl (.err o .endOfStream)) :
    s2.currIndex = s.currIndex + 1 ∧ (cfg.segments.length : Int) ≤ s2.currIndex ∧
    s2.currFile = none ∧ o = s2.roff := by
  rw [stepIter_ev] at h
  rcases hev : getEvent cfg s with _ | ⟨o2, ev⟩ <;> rw [hev] at h
  · rw [stepEv_none] at h
    obtain ⟨hn, hout⟩ := stepAdvance_done _ _ _ _ _ h
    injection hout with ho he
    have heof : (cfg.segments.length : Int) ≤ s.currIndex + 1 := by
      have hmp := (nextFile_eof_iff cfg
        { s with offPhysical := (currFileContents cfg s).endOff }).mp
      rw [hn] at hmp
      exact hmp rfl
    have hst := nextFile_eof_state cfg
      { s with offPhysical := (currFileContents cfg s).endOff } heof
    rw [hn] at hst
    dsimp only at hst
    subst hst
    exact ⟨rfl, by dsimp only; omega, rfl, ho⟩
  · cases ev with
    | record payload =>
      rw [stepEv_record] at h
      rcases hh : readHeader payload with _ | hd
      · rw [stepRecord_noHeader _ _ _ hh] at h
        cases h
      · rw [stepRecord_header _ _ _ _ hh] at h
        split_ifs at h with h1 h2 <;> cases h
    | invalid =>
      rw [stepEv_invalid] at h
      by_cases hc : ({ s with offPhysical := o2, readerPos := s.readerPos + 1 } :
          ReaderState).currIndex < (cfg.segments.length : Int) - 1
      · rw [stepInvalid_lt _ _ hc] at h
        obtain ⟨hn, hout⟩ := stepAdvance_done _ _ _ _ _ h
        injection hout with ho he
        have heof : (cfg.segments.length : Int) ≤ s.currIndex + 1 := by
          have hmp := (nextFile_eof_iff cfg
            { s with offPhysical := o2, readerPos := s.readerPos + 1 }).mp
          rw [hn] at hmp
          exact hmp rfl
        have hst := nextFile_eof_state cfg
          { s with offPhysical := o2, readerPos := s.readerPos + 1 } heof
        rw [hn] at hst
        dsimp only at hst
        subst hst
        exact ⟨rfl, by dsimp only; omega, rfl, ho⟩
      · rw [stepInvalid_ge _ _ hc] at h
        cases h
    | ioError => rw [stepEv_ioError] at h; cases h

/-- An iteration that surfaces an error other than end of stream leaves
the reader parked in place: same segment, same path, same (still open)
file handle, and it closes nothing. -/
theorem step_done_err_ne_eos (cfg : WALConfig) (s s2 : ReaderState) (cl : List Nat)
    (o : Offset) (e : NextErr) (h : stepIter cfg s = .done s2 cl (.err o e))
    (hne : e ≠ .endOfStream) :
    s2.currIndex = s.currIndex ∧ s2.offFile = s.offFile ∧ s2.currFile = s.currFile ∧
    cl = [] ∧ o = s2.roff := by
  rw [stepIter_ev] at h
  rcases hev : getEvent cfg s with _ | ⟨o2, ev⟩ <;> rw [hev] at h
  · rw [stepEv_none] at h
    obtain ⟨-, hout⟩ := stepAdvance_done _ _ _ _ _ h
    injection hout with ho he
    exact absurd he hne
  · cases ev with
    | record payload =>
      rw [stepEv_record] at h
      rcases hh : readHeader payload with _ | hd
      · rw [stepRecord_noHeader _ _ _ hh] at h
        cases h
        exact ⟨rfl, rfl, rfl, rfl, rfl⟩
      · rw [stepRecord_header _ _ _ _ hh] at h
        split_ifs at h with h1 h2 <;> cases h
    | invalid =>
      rw [stepEv_invalid] at h
      by_cases hc : ({ s with offPhysical := o2, readerPos := s.readerPos + 1 } :
          ReaderState).currIndex < (cfg.segments.length : Int) - 1
      · rw [stepInvalid_lt _ _ hc] at h
        obtain ⟨-, hout⟩ := stepAdvance_done _ _ _ _ _ h
        injection hout with ho he
        exact absurd he hne
      · rw [stepInvalid_ge _ _ hc] at h
        cases h
        exact ⟨rfl, rfl, rfl, rfl, rfl⟩
    | ioError =>
      rw [stepEv_ioError] at h
      cases h
      exact ⟨rfl, rfl, rfl, rfl, rfl⟩

theorem nextRecordLoop_succ (cfg : WALConfig) (n : Nat) (s : ReaderState) (acc : List Nat) :
    nextRecordLoop cfg (n + 1) s acc =
      match stepIter cfg s with
      | .cont s1 closed => nextRecordLoop cfg n s1 (acc ++ closed)
      | .done s1 closed out => (s1, acc ++ closed, some out) := rfl

theorem nextRecordLoop_zero (cfg : WALConfig) (s : ReaderState) (acc : List Nat) :
    nextRecordLoop cfg 0 s acc = (s, acc, none) := rfl

/-- `lastSeqNum` never decreases across the loop. -/
theorem loop_lastSeqNum_mono (cfg : WALConfig) :
    ∀ (fuel : Nat) (s : ReaderState) (acc : List Nat),
      s.lastSeqNum ≤ ((nextRecordLoop cfg fuel s acc).1).lastSeqNum := by
  intro fuel
  induction fuel with
  | zero => intro s acc; exact Nat.le_refl _
  | succ n ih =>
    intro s acc
    rw [nextRecordLoop_succ]
    rcases hstep : stepIter cfg s with ⟨s1, closed⟩ | ⟨s1, closed, out⟩
    · have h1 := (step_cont_state _ _ _ _ hstep).1
      have h2 := ih s1 (acc ++ closed)
      dsimp only
      omega
    · dsimp only
      cases out with
      | record p o =>
        obtain ⟨off, hd, a1, a2, a3, a4, a5, a6, a7, a8, a9, a10, a11, a12⟩ :=
          step_done_record_facts _ _ _ _ _ _ hstep
        omega
      | err o e =>
        have h1 := step_done_err_lastSeqNum _ _ _ _ _ _ hstep
        omega

/-- When the loop delivers a record, its header parsed, has a nonzero
count, and its sequence number strictly exceeds the starting
`lastSeqNum`, which the final state records. -/
theorem loop_record_facts (cfg : WALConfig) :
    ∀ (fuel : Nat) (s : ReaderState) (acc : List Nat) (s4 : ReaderState) (cl4 : List Nat)
      (p : List Nat) (o : Offset),
      nextRecordLoop cfg fuel s acc = (s4, cl4, some (.record p o)) →
      ∃ hd, readHeader p = some hd ∧ hd.count ≠ 0 ∧ s.lastSeqNum < hd.seqNum ∧
        s4.lastSeqNum = hd.seqNum := by
  intro fuel
  induction fuel with
  | zero =>
    intro s acc s4 cl4 p o h
    rw [nextRecordLoop_zero] at h
    simp at h
  | succ n ih =>
    intro s acc s4 cl4 p o h
    rw [nextRecordLoop_succ] at h
    split at h
    · rename_i s1 closed hstep
      obtain ⟨hd, hh, hc, hlt, hlast⟩ := ih s1 (acc ++ closed) s4 cl4 p o h
      have hle := (step_cont_state _ _ _ _ hstep).1
      exact ⟨hd, hh, hc, by omega, hlast⟩
    · rename_i s1 closed out hstep
      cases h
      obtain ⟨off, hd, a1, a2, a3, a4, a5, a6, a7, a8, a9, a10, a11, a12⟩ :=
        step_done_record_facts _ _ _ _ _ _ hstep
      exact ⟨hd, a2, a3, a4, a12⟩

/-- When the loop does not deliver a record (an error, or fuel ran out),
`lastSeqNum` is unchanged. -/
theorem loop_not_record (cfg : WALConfig) :
    ∀ (fuel : Nat) (s : ReaderState) (acc : List Nat) (s4 : ReaderState) (cl4 : List Nat)
      (out : Option NextOutcome),
      nextRecordLoop cfg fuel s acc = (s4, cl4, out) →
      (∀ p o, out ≠ some (.record p o)) → s4.lastSeqNum = s.lastSeqNum := by
  intro fuel
  induction fuel with
  | zero =>
    intro s acc s4 cl4 out h hne
    rw [nextRecordLoop_zero] at h
    cases h
    rfl
  | succ n ih =>
    intro s acc s4 cl4 out h hne
    rw [nextRecordLoop_succ] at h
    split at h
    · rename_i s1 closed hstep
      have h1 := ih s1 (acc ++ closed) s4 cl4 out h hne
      have h2 := (step_cont_state _ _ _ _ hstep).1
      omega
    · rename_i s1 closed out1 hstep
      cases h
      cases out1 with
      | record p o => exact absurd rfl (hne p o)
      | err o e => exact step_done_err_lastSeqNum _ _ _ _ _ _ hstep

theorem nextRecord_def (cfg : WALConfig) (fuel : Nat) (s : ReaderState) :
    nextRecord cfg fuel s =
      if s.currIndex < 0 then
        match nextFile cfg s with
        | (s1, closed, .eof) => (s1, closed, some (.err ⟨"", 0⟩ .endOfStream))
        | (s1, closed, .ok) => nextRecordLoop cfg fuel s1 closed
      else nextRecordLoop cfg fuel s [] := rfl

/-- `lastSeqNum` never decreases across a `NextRecord` call. -/
theorem nextRecord_lastSeqNum_mono (cfg : WALConfig) (fuel : Nat) (s : ReaderState) :
    s.lastSeqNum ≤ ((nextRecord cfg fuel s).1).lastSeqNum := by
  rw [nextRecord_def]
  split
  · rcases hn : nextFile cfg s with ⟨s1, closed, res⟩
    have hl := nextFile_fst_lastSeqNum cfg s
    rw [hn] at hl
    dsimp only at hl
    cases res
    · have h2 := loop_lastSeqNum_mono cfg fuel s1 closed
      show s.lastSeqNum ≤ ((nextRecordLoop cfg fuel s1 closed).1).lastSeqNum
      omega
    · show s.lastSeqNum ≤ s1.lastSeqNum
      omega
  · exact loop_lastSeqNum_mono cfg fuel s []

/-- When a `NextRecord` call delivers a record: header facts and the
`lastSeqNum` update. -/
theorem nextRecord_record_facts (cfg : WALConfig) (fuel : Nat) (s s4 : ReaderState)
    (cl4 : List Nat) (p : List Nat) (o : Offset)
    (h : nextRecord cfg fuel s = (s4, cl4, some (.record p o))) :
    ∃ hd, readHeader p = some hd ∧ hd.count ≠ 0 ∧ s.lastSeqNum < hd.seqNum ∧
      s4.lastSeqNum = hd.seqNum := by
  rw [nextRecord_def] at h
  split at h
  · rcases hn : nextFile cfg s with ⟨s1, closed, res⟩
    rw [hn] at h
    have hl := nextFile_fst_lastSeqNum cfg s
    rw [hn] at hl
    dsimp only at hl
    cases res
    · obtain ⟨hd, hh, hc, hlt, hlast⟩ := loop_record_facts cfg fuel s1 closed s4 cl4 p o h
      exact ⟨hd, hh, hc, by omega, hlast⟩
    · simp at h
  · exact loop_record_facts cfg fuel s [] s4 cl4 p o h

/-- When a `NextRecord` call does not deliver a record, `lastSeqNum` is
unchanged. -/
theorem nextRecord_not_record (cfg : WALConfig) (fuel : Nat) (s s4 : ReaderState)
    (cl4 : List Nat) (out : Option NextOutcome)
    (h : nextRecord cfg fuel s = (s4, cl4, out))
    (hne : ∀ p o, out ≠ some (.record p o)) : s4.lastSeqNum = s.lastSeqNum := by
  rw [nextRecord_def] at h
  split at h
  · rcases hn : nextFile cfg s with ⟨s1, closed, res⟩
    rw [hn] at h
    have hl := nextFile_fst_lastSeqNum cfg s
    rw [hn] at hl
    dsimp only at hl
    cases res
    · have h1 := loop_not_record cfg fuel s1 closed s4 cl4 out h hne
      omega
    · cases h
      exact hl
  · exact loop_not_record cfg fuel s [] s4 cl4 out h hne

theorem runSession_succ (cfg : WALConfig) (fuel n : Nat) (s : ReaderState) :
    runSession cfg fuel (n + 1) s =
      match nextRecord cfg fuel s with
      | (s1, _, some o) => o :: runSession cfg fuel n s1
      | (_, _, none) => [] := rfl

/-- The record sequence numbers a session delivers are strictly
increasing, and all exceed the starting `lastSeqNum`. -/
theorem session_facts (cfg : WALConfig) (fuel : Nat) :
    ∀ (n : Nat) (s : ReaderState),
      List.Chain' (· < ·) ((runSession cfg fuel n s).filterMap outSeqNum) ∧
      ∀ x ∈ (runSession cfg fuel n s).filterMap outSeqNum, s.lastSeqNum < x := by
  intro n
  induction n with
  | zero =>
    intro s
    exact ⟨List.chain'_nil, by intro x hx; simp [runSession] at hx⟩
  | succ m ih =>
    intro s
    rw [runSession_succ]
    rcases hn : nextRecord cfg fuel s with ⟨s1, cl, out⟩
    cases out with
    | none => exact ⟨List.chain'_nil, by intro x hx; simp at hx⟩
    | some o =>
      dsimp only
      cases o with
      | record p off =>
        obtain ⟨hd, hh, -, hlt, hlast⟩ := nextRecord_record_facts cfg fuel s s1 cl p off hn
        have hout : outSeqNum (.record p off) = some hd.seqNum := by
          simp only [outSeqNum, hh]
        have hfc : (NextOutcome.record p off :: runSession cfg fuel m s1).filterMap outSeqNum
            = hd.seqNum :: (runSession cfg fuel m s1).filterMap outSeqNum := by
          simp [List.filterMap_cons, hout]
        rw [hfc]
        obtain ⟨ihc, ihb⟩ := ih s1
        constructor
        · rw [List.chain'_cons']
          refine ⟨?_, ihc⟩
          intro y hy
          have hmem : y ∈ (runSession cfg fuel m s1).filterMap outSeqNum := by
            rw [List.eq_cons_of_mem_head? hy]
            exact List.mem_cons_self _ _
          have hgt := ihb y hmem
          omega
        · intro x hx
          rcases List.mem_cons.mp hx with rfl | hx2
          · exact hlt
          · have hgt := ihb x hx2
            omega
      | err off e =>
        have hfc : (NextOutcome.err off e :: runSession cfg fuel m s1).filterMap outSeqNum
            = (runSession cfg fuel m s1).filterMap outSeqNum := by
          simp [List.filterMap_cons]
          rfl
        rw [hfc]
        obtain ⟨ihc, ihb⟩ := ih s1
        have hls : s1.lastSeqNum = s.lastSeqNum :=
          nextRecord_not_record cfg fuel s s1 cl (some (.err off e)) hn (by intro p o2; simp)
        refine ⟨ihc, ?_⟩
        intro x hx
        have hgt := ihb x hx
        omega

/-- C1: over any session of a virtual WAL reader, the sequence numbers of
the records returned by successful NextRecord calls are strictly
increasing (so a batch whose record appears in both segment k and
segment k+1 is returned at most once); a record whose header sequence
number is at most `lastSeqNum` is skipped without being returned, and
`lastSeqNum` is updated to the header's sequence number exactly when a
record is returned. -/
theorem C1_strictly_increasing_dedup (cfg : WALConfig) (fuel n : Nat) :
    List.Chain' (· < ·) (sessionSeqNums cfg fuel n) ∧
    (∀ s s4 cl4 p o, nextRecord cfg fuel s = (s4, cl4, some (.record p o)) →
      ∃ hd, readHeader p = some hd ∧ s.lastSeqNum < hd.seqNum ∧
        s4.lastSeqNum = hd.seqNum) ∧
    (∀ s s4 cl4 out, nextRecord cfg fuel s = (s4, cl4, out) →
      (∀ p o, out ≠ some (.record p o)) → s4.lastSeqNum = s.lastSeqNum) ∧
    (∀ s off p hd, getEvent cfg s = some (off, .record p) → readHeader p = some hd →
      hd.seqNum ≤ s.lastSeqNum →
      stepIter cfg s = .cont { s with offPhysical := off, readerPos := s.readerPos + 1 } []) := by
  refine ⟨(session_facts cfg fuel n initState).1, ?_, ?_, ?_⟩
  · intro s s4 cl4 p o h
    obtain ⟨hd, hh, -, hlt, hlast⟩ := nextRecord_record_facts cfg fuel s s4 cl4 p o h
    exact ⟨hd, hh, hlt, hlast⟩
  · intro s s4 cl4 out h hne
    exact nextRecord_not_record cfg fuel s s4 cl4 out h hne
  · intro s off p hd hev hh hle
    rw [stepIter_ev, hev, stepEv_record, stepRecord_header _ _ _ _ hh]
    by_cases h1 : hd.count = 0
    · rw [if_pos h1]
    · rw [if_neg h1, if_pos hle]

/-- Witness for C1 on the failover-seam configuration: the delivered
sequence is strictly increasing, and the duplicated seq-21 record at the
head of segment 1 is skipped in place. -/
theorem C1_witness :
    List.Chain' (· < ·) (sessionSeqNums cfgSeam 20 5) ∧
    stepIter cfgSeam ⟨1, 0, some 1, "sec/000008-001.log", 0, 21⟩ =
      .cont ⟨1, 1, some 1, "sec/000008-001.log", 0, 21⟩ [] := by
  constructor
  · exact (C1_strictly_increasing_dedup cfgSeam 20 5).1
  · exact (C1_strictly_increasing_dedup cfgSeam 20 5).2.2.2
      ⟨1, 0, some 1, "sec/000008-001.log", 0, 21⟩ 0 (hdrBytes 21 1) ⟨21, 1⟩
      (by decide) (by decide) (by decide)

/-- C5: a record whose batch header has count 0 is never returned to the
caller: at the step level it is consumed silently (the reader moves past
it and the loop continues) without touching `lastSeqNum`, and every
record a NextRecord call or a whole session returns has a nonzero count. -/
theorem C5_zero_count_skipped (cfg : WALConfig) (fuel : Nat) :
    (∀ s off p hd, getEvent cfg s = some (off, .record p) → readHeader p = some hd →
      hd.count = 0 →
      stepIter cfg s = .cont { s with offPhysical := off, readerPos := s.readerPos + 1 } []) ∧
    (∀ s s4 cl4 p o, nextRecord cfg fuel s = (s4, cl4, some (.record p o)) →
      ∃ hd, readHeader p = some hd ∧ hd.count ≠ 0) ∧
    (∀ n s, ∀ out ∈ runSession cfg fuel n s, ∀ p o, out = .record p o →
      ∃ hd, readHeader p = some hd ∧ hd.count ≠ 0) := by
  refine ⟨?_, ?_, ?_⟩
  · intro s off p hd hev hh hc
    rw [stepIter_ev, hev, stepEv_record, stepRecord_header _ _ _ _ hh, if_pos hc]
  · intro s s4 cl4 p o h
    obtain ⟨hd, hh, hc, -, -⟩ := nextRecord_record_facts cfg fuel s s4 cl4 p o h
    exact ⟨hd, hh, hc⟩
  · intro n
    induction n with
    | zero =>
      intro s out hmem
      simp [runSession] at hmem
    | succ m ih =>
      intro s out hmem p o hrec
      rw [runSession_succ] at hmem
      rcases hn : nextRecord cfg fuel s with ⟨s1, cl, outc⟩
      rw [hn] at hmem
      cases outc with
      | none => simp at hmem
      | some o2 =>
        rcases List.mem_cons.mp hmem with rfl | htail
        · subst hrec
          obtain ⟨hd, hh, hc, -, -⟩ := nextRecord_record_facts cfg fuel s s1 cl p o hn
          exact ⟨hd, hh, hc⟩
        · exact ih s1 out htail p o hrec

/-- Witness for C5 on the LogData configuration: the count-0 record at
position 1 is consumed silently, and the record the next call returns
has a nonzero count. -/
theorem C5_witness :
    stepIter cfgLogData ⟨0, 1, some 0, "pri/000009.log", 0, 5⟩ =
      .cont ⟨0, 2, some 0, "pri/000009.log", 23, 5⟩ [] ∧
    (∃ hd, readHeader (hdrBytes 6 1) = some hd ∧ hd.count ≠ 0) := by
  constructor
  · exact (C5_zero_count_skipped cfgLogData 20).1 ⟨0, 1, some 0, "pri/000009.log", 0, 5⟩
      23 (hdrBytes 5 0) ⟨5, 0⟩ (by decide) (by decide) (by decide)
  · exact (C5_zero_count_skipped cfgLogData 20).2.1 ⟨0, 2, some 0, "pri/000009.log", 0, 5⟩
      ⟨0, 3, some 0, "pri/000009.log", 40, 6⟩ [] (hdrBytes 6 1) ⟨"pri/000009.log", 40⟩
      (by decide)

/-- C10 (implicit): a record whose batch header encodes sequence number 0
is never returned by NextRecord, because `lastSeqNum` starts at 0 and
the deduplication test skips any record with sequence number at most
`lastSeqNum` (which a Nat sequence number 0 always is, whatever the
count). -/
theorem C10_seq_zero_never_returned (cfg : WALConfig) (fuel : Nat) :
    initState.lastSeqNum = 0 ∧
    (∀ s off p hd, getEvent cfg s = some (off, .record p) → readHeader p = some hd →
      hd.seqNum = 0 →
      stepIter cfg s = .cont { s with offPhysical := off, readerPos := s.readerPos + 1 } []) ∧
    (∀ s s4 cl4 p o, nextRecord cfg fuel s = (s4, cl4, some (.record p o)) →
      ∃ hd, readHeader p = some hd ∧ hd.seqNum ≠ 0) := by
  refine ⟨rfl, ?_, ?_⟩
  · intro s off p hd hev hh h0
    rw [stepIter_ev, hev, stepEv_record, stepRecord_header _ _ _ _ hh]
    by_cases h1 : hd.count = 0
    · rw [if_pos h1]
    · rw [if_neg h1, if_pos (by rw [h0]; exact Nat.zero_le _)]
  · intro s s4 cl4 p o h
    obtain ⟨hd, hh, -, hlt, -⟩ := nextRecord_record_facts cfg fuel s s4 cl4 p o h
    exact ⟨hd, hh, by omega⟩

/-- Witness for C10: the seq-0 record (count 3) at the head of
`cfgSeqZero` is skipped in place, and the record the first call returns
is the seq-4 one. -/
theorem C10_witness :
    stepIter cfgSeqZero ⟨0, 0, some 0, "pri/000014.log", 0, 0⟩ =
      .cont ⟨0, 1, some 0, "pri/000014.log", 0, 0⟩ [] ∧
    (∃ hd, readHeader (hdrBytes 4 1) = some hd ∧ hd.seqNum ≠ 0) := by
  constructor
  · exact (C10_seq_zero_never_returned cfgSeqZero 20).2.1
      ⟨0, 0, some 0, "pri/000014.log", 0, 0⟩ 0 (hdrBytes 0 3) ⟨0, 3⟩
      (by decide) (by decide) (by decide)
  · exact (C10_seq_zero_never_returned cfgSeqZero 20).2.2 initState
      ⟨0, 2, some 0, "pri/000014.log", 23, 4⟩ [] (hdrBytes 4 1) ⟨"pri/000014.log", 23⟩
      (by decide)

/-- A swallowed invalid record: when a successor segment exists,
`stepInvalid` closes the current file and opens the next segment,
continuing the loop. -/
theorem stepInvalid_advance (cfg : WALConfig) (s1 : ReaderState)
    (hlt : s1.currIndex < (cfg.segments.length : Int) - 1) :
    stepInvalid cfg s1 = .cont
      { s1 with currFile := some (s1.currIndex + 1).toNat, currIndex := s1.currIndex + 1,
                readerPos := 0, offFile := segPath cfg (s1.currIndex + 1).toNat,
                offPhysical := 0 }
      (closedOf s1) := by
  rw [stepInvalid_lt _ _ hlt]
  unfold stepAdvance
  rw [nextFile_def, if_neg (by omega : ¬ (cfg.segments.length : Int) ≤ s1.currIndex + 1)]
  rfl

/-- C2: when the envelope reports an invalid record, the reader swallows
it and advances to the next segment if a successor exists (no error
escapes this call iteration); in the final segment, the invalid-record
error is surfaced to the caller unchanged. -/
theorem C2_invalid_record_policy (cfg : WALConfig) (fuel : Nat) (s : ReaderState)
    (off : Nat) (acc : List Nat) (hev : getEvent cfg s = some (off, .invalid)) :
    (s.currIndex < (cfg.segments.length : Int) - 1 →
      stepIter cfg s = .cont
        { s with currFile := some (s.currIndex + 1).toNat, currIndex := s.currIndex + 1,
                 readerPos := 0, offFile := segPath cfg (s.currIndex + 1).toNat,
                 offPhysical := 0 }
        (closedOf s) ∧
      nextRecordLoop cfg (fuel + 1) s acc = nextRecordLoop cfg fuel
        { s with currFile := some (s.currIndex + 1).toNat, currIndex := s.currIndex + 1,
                 readerPos := 0, offFile := segPath cfg (s.currIndex + 1).toNat,
                 offPhysical := 0 }
        (acc ++ closedOf s)) ∧
    (¬ s.currIndex < (cfg.segments.length : Int) - 1 →
      stepIter cfg s = .done { s with offPhysical := off, readerPos := s.readerPos + 1 } []
        (.err ⟨s.offFile, off⟩ .invalidRecord) ∧
      nextRecordLoop cfg (fuel + 1) s acc =
        ({ s with offPhysical := off, readerPos := s.readerPos + 1 }, acc,
          some (.err ⟨s.offFile, off⟩ .invalidRecord))) := by
  have hbase : stepIter cfg s =
      stepInvalid cfg { s with offPhysical := off, readerPos := s.readerPos + 1 } := by
    rw [stepIter_ev, hev, stepEv_invalid]
  constructor
  · intro hlt
    have hstep := hbase.trans (stepInvalid_advance cfg
      { s with offPhysical := off, readerPos := s.readerPos + 1 } hlt)
    refine ⟨hstep, ?_⟩
    rw [nextRecordLoop_succ, hstep]
    rfl
  · intro hge
    have hstep := hbase.trans (stepInvalid_ge cfg
      { s with offPhysical := off, readerPos := s.readerPos + 1 } hge)
    refine ⟨hstep, ?_⟩
    rw [nextRecordLoop_succ, hstep]
    simp [ReaderState.roff]

/-- Witness for C2: in `cfgTornMid` the torn tail of segment 0 is
swallowed and the reader continues into segment 1; in `cfgTornFinal` the
same torn tail in the final segment surfaces the invalid-record error
with the reader's offset. -/
theorem C2_witness :
    stepIter cfgTornMid ⟨0, 1, some 0, "pri/000010.log", 0, 30⟩ =
      .cont ⟨1, 0, some 1, "sec/000010-001.log", 0, 30⟩ [0] ∧
    stepIter cfgTornFinal ⟨0, 1, some 0, "pri/000011.log", 0, 30⟩ =
      .done ⟨0, 2, some 0, "pri/000011.log", 23, 30⟩ []
        (.err ⟨"pri/000011.log", 23⟩ .invalidRecord) ∧
    nextRecordLoop cfgTornFinal 5 ⟨0, 1, some 0, "pri/000011.log", 0, 30⟩ [] =
      (⟨0, 2, some 0, "pri/000011.log", 23, 30⟩, [],
        some (.err ⟨"pri/000011.log", 23⟩ .invalidRecord)) := by
  refine ⟨?_, ?_, ?_⟩
  · have h := ((C2_invalid_record_policy cfgTornMid 5 ⟨0, 1, some 0, "pri/000010.log", 0, 30⟩
      23 [] (by decide)).1 (by decide)).1
    exact h.trans (by decide)
  · have h := ((C2_invalid_record_policy cfgTornFinal 5 ⟨0, 1, some 0, "pri/000011.log", 0, 30⟩
      23 [] (by decide)).2 (by decide)).1
    exact h.trans (by decide)
  · have h := ((C2_invalid_record_policy cfgTornFinal 4 ⟨0, 1, some 0, "pri/000011.log", 0, 30⟩
      23 [] (by decide)).2 (by decide)).2
    exact h.trans (by decide)

/-- C4: a successfully framed record whose payload is shorter than the
12-byte batch header makes NextRecord fail with the corruption error
naming the WAL number and the current segment's logNameIndex; the error
is surfaced by the very iteration that read the record, with no
condition on whether a successor segment exists. -/
theorem C4_short_record_corruption (cfg : WALConfig) (fuel : Nat) (s : ReaderState)
    (off : Nat) (p : List Nat) (acc : List Nat)
    (hev : getEvent cfg s = some (off, .record p)) (hshort : p.length < 12) :
    readHeader p = none ∧
    stepIter cfg s = .done { s with offPhysical := off, readerPos := s.readerPos + 1 } []
      (.err ⟨s.offFile, off⟩
        (.corruption cfg.logNum (cfg.segments.getD s.currIndex.toNat ⟨0, ""⟩).logNameIndex)) ∧
    nextRecordLoop cfg (fuel + 1) s acc =
      ({ s with offPhysical := off, readerPos := s.readerPos + 1 }, acc,
        some (.err ⟨s.offFile, off⟩ (.corruption cfg.logNum
          (cfg.segments.getD s.currIndex.toNat ⟨0, ""⟩).logNameIndex))) := by
  have hh : readHeader p = none := by
    unfold readHeader
    rw [if_pos hshort]
  have hstep : stepIter cfg s =
      .done { s with offPhysical := off, readerPos := s.readerPos + 1 } []
        (.err ⟨s.offFile, off⟩ (.corruption cfg.logNum
          (cfg.segments.getD s.currIndex.toNat ⟨0, ""⟩).logNameIndex)) := by
    rw [stepIter_ev, hev, stepEv_record, stepRecord_noHeader _ _ _ hh]
    rfl
  refine ⟨hh, hstep, ?_⟩
  rw [nextRecordLoop_succ, hstep]
  simp

/-- Witness for C4: the 3-byte record at the head of `cfgShortRec`
(which has a successor segment) surfaces the corruption error naming WAL
12 and logNameIndex 0. -/
theorem C4_witness :
    readHeader [1, 2, 3] = none ∧
    nextRecordLoop cfgShortRec 5 ⟨0, 0, some 0, "pri/000012.log", 0, 0⟩ [] =
      (⟨0, 1, some 0, "pri/000012.log", 0, 0⟩, [],
        some (.err ⟨"pri/000012.log", 0⟩ (.corruption 12 0))) := by
  obtain ⟨hh, -, hloop⟩ := C4_short_record_corruption cfgShortRec 4
    ⟨0, 0, some 0, "pri/000012.log", 0, 0⟩ 0 [1, 2, 3] [] (by decide) (by decide)
  exact ⟨hh, hloop.trans (by decide)⟩

theorem stepAdvance_eof_eq (cfg : WALConfig) (s1 : ReaderState)
    (heof : (cfg.segments.length : Int) ≤ s1.currIndex + 1) :
    stepAdvance cfg s1 = .done { s1 with currFile := none, currIndex := s1.currIndex + 1 }
      (closedOf s1)
      (.err ({ s1 with currFile := none, currIndex := s1.currIndex + 1 } : ReaderState).roff
        .endOfStream) := by
  unfold stepAdvance
  rw [nextFile_def, if_pos heof]
  rfl

theorem stepAdvance_ok_eq (cfg : WALConfig) (s1 : ReaderState)
    (hok : ¬ (cfg.segments.length : Int) ≤ s1.currIndex + 1) :
    stepAdvance cfg s1 = .cont
      { s1 with currFile := some (s1.currIndex + 1).toNat, currIndex := s1.currIndex + 1,
                readerPos := 0, offFile := segPath cfg (s1.currIndex + 1).toNat,
                offPhysical := 0 } (closedOf s1) := by
  unfold stepAdvance
  rw [nextFile_def, if_neg hok]
  rfl

theorem getD_events_nil : ∀ (l : List SegFile) (i : Nat), (∀ f ∈ l, f.events = []) →
    (l.getD i ⟨[], 0⟩).events = []
  | [], _, _ => rfl
  | f :: _, 0, h => h f (List.mem_cons_self f _)
  | f :: l, i + 1, h => getD_events_nil l i (fun g hg => h g (List.mem_cons_of_mem f hg))

/-- Within the loop (a file open, more segments to go), an end-of-stream
outcome is returned exactly when the final state's `currIndex` reached
`len(segments)`. -/
theorem loop_eos_iff (cfg : WALConfig) :
    ∀ (fuel : Nat) (s : ReaderState) (acc : List Nat) (s4 : ReaderState) (cl4 : List Nat)
      (out : Option NextOutcome),
      0 ≤ s.currIndex → s.currIndex < (cfg.segments.length : Int) →
      nextRecordLoop cfg fuel s acc = (s4, cl4, out) →
      ((∃ o, out = some (.err o .endOfStream)) ↔
        s4.currIndex = (cfg.segments.length : Int)) := by
  intro fuel
  induction fuel with
  | zero =>
    intro s acc s4 cl4 out h0 hlt h
    rw [nextRecordLoop_zero] at h
    cases h
    constructor
    · rintro ⟨o, ho⟩
      simp at ho
    · intro hc
      exact absurd hc (by omega)
  | succ n ih =>
    intro s acc s4 cl4 out h0 hlt h
    rw [nextRecordLoop_succ] at h
    split at h
    · rename_i s1 closed hstep
      obtain ⟨-, hdisj⟩ := step_cont_state _ _ _ _ hstep
      have h0' : 0 ≤ s1.currIndex := by
        rcases hdisj with ⟨hci, -⟩ | ⟨hci, -⟩ <;> omega
      have hlt' : s1.currIndex < (cfg.segments.length : Int) := by
        rcases hdisj with ⟨hci, -⟩ | ⟨-, hlt2, -⟩ <;> omega
      exact ih s1 (acc ++ closed) s4 cl4 out h0' hlt' h
    · rename_i s1 closed out1 hstep
      cases h
      cases out1 with
      | record p o =>
        obtain ⟨off, hd, a1, a2, a3, a4, a5, a6, a7, a8, a9, a10, a11, a12⟩ :=
          step_done_record_facts _ _ _ _ _ _ hstep
        constructor
        · rintro ⟨o2, ho⟩
          simp at ho
        · intro hc
          rw [a7] at hc
          exact absurd hc (by omega)
      | err o e =>
        cases e with
        | endOfStream =>
          obtain ⟨hc1, hc2, -, -⟩ := step_done_eos _ _ _ _ _ hstep
          constructor
          · intro
            omega
          · intro
            exact ⟨o, rfl⟩
        | invalidRecord =>
          obtain ⟨hc1, -⟩ := step_done_err_ne_eos _ _ _ _ _ _ hstep (by simp)
          constructor
          · rintro ⟨o2, ho⟩
            simp at ho
          · intro hc
            rw [hc1] at hc
            exact absurd hc (by omega)
        | ioError =>
          obtain ⟨hc1, -⟩ := step_done_err_ne_eos _ _ _ _ _ _ hstep (by simp)
          constructor
          · rintro ⟨o2, ho⟩
            simp at ho
          · intro hc
            rw [hc1] at hc
            exact absurd hc (by omega)
        | corruption ln li =>
          obtain ⟨hc1, -⟩ := step_done_err_ne_eos _ _ _ _ _ _ hstep (by simp)
          constructor
          · rintro ⟨o2, ho⟩
            simp at ho
          · intro hc
            rw [hc1] at hc
            exact absurd hc (by omega)

/-- When every segment is empty of envelope events (EOF-only files), the
loop reaches end of stream within `m` iterations, where `m` counts the
remaining segments. -/
theorem loop_empty_eos (cfg : WALConfig) (hempty : ∀ f ∈ cfg.contents, f.events = []) :
    ∀ (fuel : Nat) (m : Nat) (s : ReaderState) (acc : List Nat),
      1 ≤ m → s.currIndex + m = (cfg.segments.length : Int) → 0 ≤ s.currIndex → m ≤ fuel →
      ∃ s4 cl4 o, nextRecordLoop cfg fuel s acc = (s4, cl4, some (.err o .endOfStream)) := by
  intro fuel
  induction fuel with
  | zero =>
    intro m s acc h1 h2 h3 h4
    exfalso
    omega
  | succ n ih =>
    intro m s acc h1 h2 h3 h4
    have hev : getEvent cfg s = none := by
      unfold getEvent currFileContents
      rw [getD_events_nil cfg.contents s.currIndex.toNat hempty]
      rfl
    have hstep : stepIter cfg s =
        stepAdvance cfg { s with offPhysical := (currFileContents cfg s).endOff } := by
      rw [stepIter_ev, hev, stepEv_none]
    by_cases hm : m = 1
    · have heof : (cfg.segments.length : Int) ≤
          ({ s with offPhysical := (currFileContents cfg s).endOff } :
            ReaderState).currIndex + 1 := by
        dsimp only
        omega
      have hstep2 := hstep.trans (stepAdvance_eof_eq cfg _ heof)
      refine ⟨{ currIndex := s.currIndex + 1, readerPos := s.readerPos, currFile := none,
                offFile := s.offFile, offPhysical := (currFileContents cfg s).endOff,
                lastSeqNum := s.lastSeqNum },
              acc ++ closedOf s,
              ⟨s.offFile, (currFileContents cfg s).endOff⟩, ?_⟩
      rw [nextRecordLoop_succ, hstep2]
      rfl
    · have hok : ¬ (cfg.segments.length : Int) ≤
          ({ s with offPhysical := (currFileContents cfg s).endOff } :
            ReaderState).currIndex + 1 := by
        dsimp only
        omega
      have hstep2 := hstep.trans (stepAdvance_ok_eq cfg _ hok)
      obtain ⟨s4, cl4, o, hrec⟩ := ih (m - 1)
        { currIndex := s.currIndex + 1, readerPos := 0,
          currFile := some (s.currIndex + 1).toNat, offFile := segPath cfg (s.currIndex + 1).toNat,
          offPhysical := 0, lastSeqNum := s.lastSeqNum }
        (acc ++ closedOf { s with offPhysical := (currFileContents cfg s).endOff })
        (by omega) (by dsimp only; omega) (by dsimp only; omega) (by omega)
      refine ⟨s4, cl4, o, ?_⟩
      rw [nextRecordLoop_succ, hstep2]
      exact hrec

/-- C8: NextRecord returns end of stream exactly when segment advancement
increments `currIndex` to `len(segments)` (every segment consumed): the
per-iteration source of end of stream is `nextFile` moving `currIndex`
one past a position at `len - 1`; over a call from any reachable state,
end of stream is returned iff the final `currIndex` equals
`len(segments)`; and for a logical WAL with no returnable records at all
(EOF-only segment files), the first call returns end of stream
immediately. -/
theorem C8_end_of_stream (cfg : WALConfig) (fuel : Nat) :
    (∀ s s2 cl o, stepIter cfg s = .done s2 cl (.err o .endOfStream) →
      s2.currIndex = s.currIndex + 1 ∧ (cfg.segments.length : Int) ≤ s2.currIndex) ∧
    (∀ s s4 cl4 out, -1 ≤ s.currIndex → s.currIndex < (cfg.segments.length : Int) →
      nextRecord cfg fuel s = (s4, cl4, out) →
      ((∃ o, out = some (.err o .endOfStream)) ↔
        s4.currIndex = (cfg.segments.length : Int))) ∧
    ((∀ f ∈ cfg.contents, f.events = []) → cfg.segments.length ≤ fuel →
      ∃ s4 cl4 o, nextRecord cfg fuel initState = (s4, cl4, some (.err o .endOfStream))) := by
  refine ⟨?_, ?_, ?_⟩
  · intro s s2 cl o h
    obtain ⟨h1, h2, -, -⟩ := step_done_eos _ _ _ _ _ h
    exact ⟨h1, h2⟩
  · intro s s4 cl4 out hge hlt hrun
    rw [nextRecord_def] at hrun
    split at hrun
    · rename_i hneg
      rcases hn : nextFile cfg s with ⟨s1, closed, res⟩
      rw [hn] at hrun
      cases res
      · have hok : ¬ (cfg.segments.length : Int) ≤ s.currIndex + 1 := by
          have hmp := (nextFile_ok_iff cfg s).mp
          rw [hn] at hmp
          exact hmp rfl
        have hst := nextFile_ok_state cfg s hok
        rw [hn] at hst
        dsimp only at hst
        subst hst
        exact loop_eos_iff cfg fuel _ closed s4 cl4 out (by dsimp only; omega)
          (by dsimp only; omega) hrun
      · have heof : (cfg.segments.length : Int) ≤ s.currIndex + 1 := by
          have hmp := (nextFile_eof_iff cfg s).mp
          rw [hn] at hmp
          exact hmp rfl
        have hst := nextFile_eof_state cfg s heof
        rw [hn] at hst
        dsimp only at hst
        subst hst
        cases hrun
        constructor
        · intro
          dsimp only
          omega
        · intro
          exact ⟨⟨"", 0⟩, rfl⟩
    · rename_i hpos
      exact loop_eos_iff cfg fuel s [] s4 cl4 out (by omega) hlt hrun
  · intro hempty hfuel
    rw [nextRecord_def]
    rw [if_pos (by decide : initState.currIndex < 0)]
    by_cases hlen : cfg.segments.length = 0
    · rw [nextFile_def,
        if_pos (by rw [hlen] ; decide : (cfg.segments.length : Int) ≤ initState.currIndex + 1)]
      exact ⟨_, _, _, rfl⟩
    · rw [nextFile_def,
        if_neg (by dsimp only [initState]; omega :
          ¬ (cfg.segments.length : Int) ≤ initState.currIndex + 1)]
      obtain ⟨s4, cl4, o, hrec⟩ := loop_empty_eos cfg hempty fuel cfg.segments.length
        { currIndex := initState.currIndex + 1, readerPos := 0,
          currFile := some (initState.currIndex + 1).toNat,
          offFile := segPath cfg (initState.currIndex + 1).toNat, offPhysical := 0,
          lastSeqNum := initState.lastSeqNum }
        (closedOf initState)
        (by omega) (by dsimp only [initState]; omega) (by dsimp only [initState]; omega) hfuel
      exact ⟨s4, cl4, o, hrec⟩

/-- Witness for C8 on two EOF-only segments: the first call returns end
of stream, and its final `currIndex` equals the segment count. -/
theorem C8_witness :
    nextRecord cfgEmptySegs 5 initState =
      (⟨2, 0, none, "sec/000013-001.log", 7, 0⟩, [0, 1],
        some (.err ⟨"sec/000013-001.log", 7⟩ .endOfStream)) ∧
    (2 : Int) = (cfgEmptySegs.segments.length : Int) := by
  refine ⟨by decide, ?_⟩
  exact ((C8_end_of_stream cfgEmptySegs 5).2.1 initState
    ⟨2, 0, none, "sec/000013-001.log", 7, 0⟩ [0, 1]
    (some (.err ⟨"sec/000013-001.log", 7⟩ .endOfStream))
    (by decide) (by decide) (by decide)).mp ⟨_, rfl⟩

/-- A continuing iteration preserves the open-file invariant. -/
theorem step_cont_good (cfg : WALConfig) (s s1 : ReaderState) (cl : List Nat)
    (hg : GoodS cfg s) (h : stepIter cfg s = .cont s1 cl) : GoodS cfg s1 := by
  obtain ⟨h0, hlt, hoff⟩ := hg
  obtain ⟨-, hdisj⟩ := step_cont_state _ _ _ _ h
  rcases hdisj with ⟨hci, hof, -⟩ | ⟨hci, hlt2, hof, -⟩
  · exact ⟨by omega, by omega, by rw [hof, hci, hoff]⟩
  · exact ⟨by omega, hlt2, hof⟩

/-- The loop preserves the open-file invariant, except that reaching end
of stream parks `currIndex` at `len(segments)`. -/
theorem loop_good (cfg : WALConfig) :
    ∀ (fuel : Nat) (s : ReaderState) (acc : List Nat) (s4 : ReaderState) (cl4 : List Nat)
      (out : Option NextOutcome), GoodS cfg s →
      nextRecordLoop cfg fuel s acc = (s4, cl4, out) →
      GoodS cfg s4 ∨ s4.currIndex = (cfg.segments.length : Int) := by
  intro fuel
  induction fuel with
  | zero =>
    intro s acc s4 cl4 out hg h
    rw [nextRecordLoop_zero] at h
    cases h
    exact Or.inl hg
  | succ n ih =>
    intro s acc s4 cl4 out hg h
    rw [nextRecordLoop_succ] at h
    split at h
    · rename_i s1 closed hstep
      exact ih s1 (acc ++ closed) s4 cl4 out (step_cont_good _ _ _ _ hg hstep) h
    · rename_i s1 closed out1 hstep
      cases h
      obtain ⟨h0, hlt, hoff⟩ := hg
      cases out1 with
      | record p o =>
        obtain ⟨off, hd, a1, a2, a3, a4, a5, a6, a7, a8, a9, a10, a11, a12⟩ :=
          step_done_record_facts _ _ _ _ _ _ hstep
        exact Or.inl ⟨by omega, by omega, by rw [a10, a7, hoff]⟩
      | err o e =>
        cases e with
        | endOfStream =>
          obtain ⟨hc1, hc2, -, -⟩ := step_done_eos _ _ _ _ _ hstep
          exact Or.inr (by omega)
        | invalidRecord =>
          obtain ⟨hc1, hc2, -⟩ := step_done_err_ne_eos _ _ _ _ _ _ hstep (by simp)
          exact Or.inl ⟨by omega, by omega, by rw [hc2, hc1, hoff]⟩
        | ioError =>
          obtain ⟨hc1, hc2, -⟩ := step_done_err_ne_eos _ _ _ _ _ _ hstep (by simp)
          exact Or.inl ⟨by omega, by omega, by rw [hc2, hc1, hoff]⟩
        | corruption ln li =>
          obtain ⟨hc1, hc2, -⟩ := step_done_err_ne_eos _ _ _ _ _ _ hstep (by simp)
          exact Or.inl ⟨by omega, by omega, by rw [hc2, hc1, hoff]⟩

/-- When the loop, started with the open-file invariant, delivers a
record, the accompanying offset names the path of the segment being read
and the byte position at which the record begins in that file. -/
theorem loop_record_offset (cfg : WALConfig) :
    ∀ (fuel : Nat) (s : ReaderState) (acc : List Nat) (s4 : ReaderState) (cl4 : List Nat)
      (p : List Nat) (o : Offset), GoodS cfg s →
      nextRecordLoop cfg fuel s acc = (s4, cl4, some (.record p o)) →
      0 ≤ s4.currIndex ∧ s4.currIndex < (cfg.segments.length : Int) ∧
      o.physicalFile = segPath cfg s4.currIndex.toNat ∧ 1 ≤ s4.readerPos ∧
      o.physical = s4.offPhysical ∧
      eventAt cfg s4.currIndex.toNat (s4.readerPos - 1) = some (o.physical, .record p) := by
  intro fuel
  induction fuel with
  | zero =>
    intro s acc s4 cl4 p o hg h
    rw [nextRecordLoop_zero] at h
    simp at h
  | succ n ih =>
    intro s acc s4 cl4 p o hg h
    rw [nextRecordLoop_succ] at h
    split at h
    · rename_i s1 closed hstep
      exact ih s1 (acc ++ closed) s4 cl4 p o (step_cont_good _ _ _ _ hg hstep) h
    · rename_i s1 closed out1 hstep
      cases h
      obtain ⟨h0, hlt, hoff⟩ := hg
      obtain ⟨off, hd, a1, a2, a3, a4, a5, a6, a7, a8, a9, a10, a11, a12⟩ :=
        step_done_record_facts _ _ _ _ _ _ hstep
      have hophys : o.physical = off := by rw [a6]
      refine ⟨by omega, by omega, ?_, by omega, by rw [a11, hophys], ?_⟩
      · rw [a6, a7, hoff]
      · rw [a7, a8, hophys]
        simpa using a1

/-- C9: every record NextRecord returns is accompanied by an Offset whose
`physicalFile` is the path of the segment file currently being read
(`segPath` of the final state's `currIndex`, which `nextFile` switches
to the successor's path on every segment change, resetting positions to
that file) and whose `physical` is the byte position within that file at
which the record begins (the position of the consumed envelope event);
the open-file invariant needed for this is preserved by every call from
the initial state on. -/
theorem C9_offset_tracks_current_segment (cfg : WALConfig) (fuel : Nat) :
    (∀ s s4 cl4 p o, (s.currIndex = -1 ∨ GoodS cfg s) →
      nextRecord cfg fuel s = (s4, cl4, some (.record p o)) →
      0 ≤ s4.currIndex ∧ s4.currIndex < (cfg.segments.length : Int) ∧
      o.physicalFile = segPath cfg s4.currIndex.toNat ∧ 1 ≤ s4.readerPos ∧
      o.physical = s4.offPhysical ∧
      eventAt cfg s4.currIndex.toNat (s4.readerPos - 1) = some (o.physical, .record p)) ∧
    (∀ s s4 cl4 out, (s.currIndex = -1 ∨ GoodS cfg s) →
      nextRecord cfg fuel s = (s4, cl4, out) →
      GoodS cfg s4 ∨ s4.currIndex = (cfg.segments.length : Int)) := by
  have hopen : ∀ s : ReaderState, s.currIndex = -1 →
      ∀ s1 closed, nextFile cfg s = (s1, closed, NextFileRes.ok) → GoodS cfg s1 := by
    intro s hneg s1 closed hn
    have hok : ¬ (cfg.segments.length : Int) ≤ s.currIndex + 1 := by
      have hmp := (nextFile_ok_iff cfg s).mp
      rw [hn] at hmp
      exact hmp rfl
    have hst := nextFile_ok_state cfg s hok
    rw [hn] at hst
    dsimp only at hst
    subst hst
    exact ⟨by dsimp only; omega, by dsimp only; omega, rfl⟩
  constructor
  · intro s s4 cl4 p o hpre hrun
    rw [nextRecord_def] at hrun
    split at hrun
    · rcases hn : nextFile cfg s with ⟨s1, closed, res⟩
      rw [hn] at hrun
      cases res
      · rename_i hneg
        have hg1 : GoodS cfg s1 := by
          rcases hpre with hm1 | ⟨hge, -⟩
          · exact hopen s hm1 s1 closed hn
          · omega
        exact loop_record_offset cfg fuel s1 closed s4 cl4 p o hg1 hrun
      · simp at hrun
    · rename_i hpos
      have hg : GoodS cfg s := by
        rcases hpre with hm1 | hg
        · omega
        · exact hg
      exact loop_record_offset cfg fuel s [] s4 cl4 p o hg hrun
  · intro s s4 cl4 out hpre hrun
    rw [nextRecord_def] at hrun
    split at hrun
    · rcases hn : nextFile cfg s with ⟨s1, closed, res⟩
      rw [hn] at hrun
      cases res
      · rename_i hneg
        have hg1 : GoodS cfg s1 := by
          rcases hpre with hm1 | ⟨hge, -⟩
          · exact hopen s hm1 s1 closed hn
          · omega
        exact loop_good cfg fuel s1 closed s4 cl4 out hg1 hrun
      · rename_i hneg
        have heof : (cfg.segments.length : Int) ≤ s.currIndex + 1 := by
          have hmp := (nextFile_eof_iff cfg s).mp
          rw [hn] at hmp
          exact hmp rfl
        have hst := nextFile_eof_state cfg s heof
        rw [hn] at hst
        dsimp only at hst
        subst hst
        cases hrun
        right
        rcases hpre with hm1 | ⟨hge, hlt, -⟩
        · dsimp only
          omega
        · dsimp only
          omega
    · rename_i hpos
      have hg : GoodS cfg s := by
        rcases hpre with hm1 | hg
        · omega
        · exact hg
      exact loop_good cfg fuel s [] s4 cl4 out hg hrun

/-- Witness for C9 on the failover seam: the third delivered record (seq
22) crosses the segment boundary; its offset names the successor's path
and restarts at that file's positions. -/
theorem C9_witness :
    nextRecord cfgSeam 20 ⟨0, 2, some 0, "pri/000008.log", 0, 21⟩ =
      (⟨1, 2, some 1, "sec/000008-001.log", 23, 22⟩, [0],
        some (.record (hdrBytes 22 1) ⟨"sec/000008-001.log", 23⟩)) ∧
    "sec/000008-001.log" = segPath cfgSeam 1 ∧
    eventAt cfgSeam 1 1 = some (23, .record (hdrBytes 22 1)) := by
  refine ⟨by decide, ?_, ?_⟩
  · exact ((C9_offset_tracks_current_segment cfgSeam 20).1
      ⟨0, 2, some 0, "pri/000008.log", 0, 21⟩
      ⟨1, 2, some 1, "sec/000008-001.log", 23, 22⟩ [0] (hdrBytes 22 1)
      ⟨"sec/000008-001.log", 23⟩
      (Or.inr ⟨by decide, by decide, by decide⟩) (by decide)).2.2.1
  · exact ((C9_offset_tracks_current_segment cfgSeam 20).1
      ⟨0, 2, some 0, "pri/000008.log", 0, 21⟩
      ⟨1, 2, some 1, "sec/000008-001.log", 23, 22⟩ [0] (hdrBytes 22 1)
      ⟨"sec/000008-001.log", 23⟩
      (Or.inr ⟨by decide, by decide, by decide⟩) (by decide)).2.2.2.2.2

/-- A loop run that ends in end of stream leaves no file open
(`nextFile` closed and nilled the handle before reporting io.EOF). -/
theorem loop_eos_currFile_none (cfg : WALConfig) :
    ∀ (fuel : Nat) (s : ReaderState) (acc : List Nat) (s4 : ReaderState) (cl4 : List Nat)
      (o : Offset),
      nextRecordLoop cfg fuel s acc = (s4, cl4, some (.err o .endOfStream)) →
      s4.currFile = none := by
  intro fuel
  induction fuel with
  | zero =>
    intro s acc s4 cl4 o h
    rw [nextRecordLoop_zero] at h
    simp at h
  | succ n ih =>
    intro s acc s4 cl4 o h
    rw [nextRecordLoop_succ] at h
    split at h
    · rename_i s1 closed hstep
      exact ih s1 (acc ++ closed) s4 cl4 o h
    · rename_i s1 closed out1 hstep
      cases h
      obtain ⟨-, -, hcf, -⟩ := step_done_eos _ _ _ _ _ hstep
      exact hcf

/-- Counterexample to C3 as stated: after one NextRecord call on a
single-segment WAL the reader holds handle 0 open; the first Close call
closes handle 0, and a second Close call closes the same handle 0 again
(Close does not clear `currFile`), so across all close calls the open
handle is not closed exactly once. -/
theorem C3_counterexample :
    ((nextRecord cfgSingle 20 initState).1).currFile = some 0 ∧
    (closeReader (nextRecord cfgSingle 20 initState).1).2 = [0] ∧
    (closeReader (closeReader (nextRecord cfgSingle 20 initState).1).1).2 = [0] := by
  decide

/-- C3 (amended): a single Close call closes any open segment file
handle exactly once and leaves the state unchanged; when no file is open
(in particular after EndOfStream, whose segment advancement already
closed and cleared the handle) Close closes nothing and is idempotent;
Close does not clear `currFile`, so only the no-open-file case is
idempotent. -/
theorem C3_close_amended (cfg : WALConfig) (fuel : Nat) :
    (∀ s : ReaderState, s.currFile = none → closeReader s = (s, [])) ∧
    (∀ (s : ReaderState) (h : Nat), s.currFile = some h →
      (closeReader s).2 = [h] ∧ (closeReader s).1 = s) ∧
    (∀ s s4 cl4 o, nextRecord cfg fuel s = (s4, cl4, some (.err o .endOfStream)) →
      s4.currFile = none ∧ closeReader s4 = (s4, [])) := by
  refine ⟨?_, ?_, ?_⟩
  · intro s hnone
    unfold closeReader
    rw [hnone]
  · intro s h hsome
    unfold closeReader
    rw [hsome]
    exact ⟨rfl, rfl⟩
  · intro s s4 cl4 o hrun
    have hnone : s4.currFile = none := by
      rw [nextRecord_def] at hrun
      split at hrun
      · rcases hn : nextFile cfg s with ⟨s1, closed, res⟩
        rw [hn] at hrun
        cases res
        · exact loop_eos_currFile_none cfg fuel s1 closed s4 cl4 o hrun
        · have heof : (cfg.segments.length : Int) ≤ s.currIndex + 1 := by
            have hmp := (nextFile_eof_iff cfg s).mp
            rw [hn] at hmp
            exact hmp rfl
          have hst := nextFile_eof_state cfg s heof
          rw [hn] at hst
          dsimp only at hst
          cases hrun
          rw [hst]
      · exact loop_eos_currFile_none cfg fuel s [] s4 cl4 o hrun
    refine ⟨hnone, ?_⟩
    unfold closeReader
    rw [hnone]

/-- Witness for the amended C3: Close after EndOfStream is a no-op, and
a single Close on an open handle closes exactly that handle. -/
theorem C3_witness :
    closeReader ⟨2, 0, none, "sec/000013-001.log", 7, 0⟩ =
      (⟨2, 0, none, "sec/000013-001.log", 7, 0⟩, []) ∧
    (closeReader (nextRecord cfgSingle 20 initState).1).2 = [0] := by
  constructor
  · exact ((C3_close_amended cfgEmptySegs 5).2.2 initState
      ⟨2, 0, none, "sec/000013-001.log", 7, 0⟩ [0, 1] ⟨"sec/000013-001.log", 7⟩
      (by decide)).2
  · exact ((C3_close_amended cfgSingle 20).2.1 (nextRecord cfgSingle 20 initState).1 0
      (by decide)).1

/-
Lemmas about listLogs: ordered insertion.
-/

theorem insertSegment_ok_mem (dname : String) (li : Nat) :
    ∀ (segs r : List Segment), insertSegment dname li segs = .ok r →
      ∀ t : Segment, t ∈ r ↔ t = ⟨li, dname⟩ ∨ t ∈ segs := by
  intro segs
  induction segs with
  | nil =>
    intro r h t
    cases h
    simp
  | cons s rest ih =>
    intro r h t
    unfold insertSegment at h
    split_ifs at h with h1 h2
    · cases h
      simp only [List.mem_cons]
    · rcases hr : insertSegment dname li rest with e | r1 <;> rw [hr] at h
      · cases h
      · cases h
        have hm := ih r1 hr t
        simp only [List.mem_cons] at hm ⊢
        tauto

theorem insertSegment_ok_sorted (dname : String) (li : Nat) :
    ∀ (segs r : List Segment),
      List.Pairwise (· < ·) (segs.map (·.logNameIndex)) →
      insertSegment dname li segs = .ok r →
      List.Pairwise (· < ·) (r.map (·.logNameIndex)) := by
  intro segs
  induction segs with
  | nil =>
    intro r hp h
    cases h
    simp
  | cons s rest ih =>
    intro r hp h
    rw [List.map_cons, List.pairwise_cons] at hp
    obtain ⟨hs, hrest⟩ := hp
    unfold insertSegment at h
    split_ifs at h with h1 h2
    · cases h
      rw [List.map_cons, List.pairwise_cons]
      refine ⟨?_, by rw [List.map_cons, List.pairwise_cons]; exact ⟨hs, hrest⟩⟩
      intro b hb
      rw [List.map_cons, List.mem_cons] at hb
      rcases hb with rfl | hb
      · exact h1
      · exact h1.trans (hs b hb)
    · rcases hr : insertSegment dname li rest with e | r1 <;> rw [hr] at h
      · cases h
      · cases h
        rw [List.map_cons, List.pairwise_cons]
        refine ⟨?_, ih r1 hrest hr⟩
        intro b hb
        rw [List.mem_map] at hb
        obtain ⟨t, ht, rfl⟩ := hb
        rcases (insertSegment_ok_mem dname li rest r1 hr t).mp ht with rfl | ht2
        · dsimp only
          omega
        · exact hs t.logNameIndex (List.mem_map_of_mem _ ht2)

theorem insertSegment_error (dname : String) (li : Nat) :
    ∀ (segs : List Segment) (d : String), insertSegment dname li segs = .error d →
      ∃ t ∈ segs, t.logNameIndex = li ∧ t.dir = d := by
  intro segs
  induction segs with
  | nil => intro d h; cases h
  | cons s rest ih =>
    intro d h
    unfold insertSegment at h
    split_ifs at h with h1 h2
    · cases h
      exact ⟨s, List.mem_cons_self s rest, h2.symm, rfl⟩
    · rcases hr : insertSegment dname li rest with e | r1 <;> rw [hr] at h
      · cases h
        obtain ⟨t, ht, h3, h4⟩ := ih _ hr
        exact ⟨t, List.mem_cons_of_mem s ht, h3, h4⟩
      · cases h

theorem insertSegment_error_of_mem (dname : String) (li : Nat) :
    ∀ (segs : List Segment),
      List.Pairwise (· < ·) (segs.map (·.logNameIndex)) →
      (∃ t ∈ segs, t.logNameIndex = li) →
      ∃ d, insertSegment dname li segs = .error d := by
  intro segs
  induction segs with
  | nil =>
    intro hp hmem
    obtain ⟨t, ht, -⟩ := hmem
    cases ht
  | cons s rest ih =>
    intro hp hmem
    rw [List.map_cons, List.pairwise_cons] at hp
    obtain ⟨hs, hrest⟩ := hp
    obtain ⟨t, ht, hkey⟩ := hmem
    rcases List.mem_cons.mp ht with rfl | ht2
    · refine ⟨t.dir, ?_⟩
      unfold insertSegment
      rw [if_neg (by omega), if_pos (by omega)]
    · have hlt : s.logNameIndex < li := by
        have := hs t.logNameIndex (List.mem_map_of_mem _ ht2)
        omega
      obtain ⟨d, hd⟩ := ih hrest ⟨t, ht2, hkey⟩
      refine ⟨d, ?_⟩
      unfold insertSegment
      rw [if_neg (by omega), if_neg (by omega), hd]

theorem walsSorted_cons (w : LogicalWAL) (rest : List LogicalWAL)
    (h : walsSorted (w :: rest)) :
    (∀ b ∈ rest.map (·.numWAL), w.numWAL < b) ∧
    List.Pairwise (· < ·) (w.segments.map (·.logNameIndex)) ∧ walsSorted rest := by
  obtain ⟨hnum, hsegs⟩ := h
  rw [List.map_cons, List.pairwise_cons] at hnum
  exact ⟨hnum.1, hsegs w (List.mem_cons_self _ _),
    hnum.2, fun w' hw' => hsegs w' (List.mem_cons_of_mem _ hw')⟩

theorem insertWAL_ok_fwd (dname : String) (dfn li : Nat) :
    ∀ (wals r : List LogicalWAL), insertWAL dname dfn li wals = .ok r →
      (∀ n l, pairMem (n, l) wals → pairMem (n, l) r) ∧ pairMem (dfn, li) r := by
  intro wals
  induction wals with
  | nil =>
    intro r h
    cases h
    constructor
    · intro n l hq
      obtain ⟨w, hw, -⟩ := hq
      cases hw
    · exact ⟨_, List.mem_cons_self _ _, rfl, _, List.mem_cons_self _ _, rfl⟩
  | cons w rest ih =>
    intro r h
    unfold insertWAL at h
    split_ifs at h with h1 h2
    · cases h
      constructor
      · intro n l hq
        obtain ⟨w0, hw0, hn, t, ht, hl⟩ := hq
        exact ⟨w0, List.mem_cons_of_mem _ hw0, hn, t, ht, hl⟩
      · exact ⟨_, List.mem_cons_self _ _, rfl, _, List.mem_cons_self _ _, rfl⟩
    · rcases hr : insertSegment dname li w.segments with d2 | segs <;> rw [hr] at h
      · cases h
      · cases h
        have hmem := insertSegment_ok_mem dname li w.segments segs hr
        constructor
        · intro n l hq
          obtain ⟨w0, hw0, hn, t, ht, hl⟩ := hq
          rcases List.mem_cons.mp hw0 with rfl | hw0r
          · exact ⟨⟨w0.numWAL, segs⟩, List.mem_cons_self _ _, hn, t,
              (hmem t).mpr (Or.inr ht), hl⟩
          · exact ⟨w0, List.mem_cons_of_mem _ hw0r, hn, t, ht, hl⟩
        · exact ⟨⟨w.numWAL, segs⟩, List.mem_cons_self _ _, h2.symm, ⟨li, dname⟩,
            (hmem _).mpr (Or.inl rfl), rfl⟩
    · rcases hr : insertWAL dname dfn li rest with e | r1 <;> rw [hr] at h
      · cases h
      · cases h
        obtain ⟨hfwd, hnew⟩ := ih r1 hr
        constructor
        · intro n l hq
          obtain ⟨w0, hw0, hn, t, ht, hl⟩ := hq
          rcases List.mem_cons.mp hw0 with rfl | hw0r
          · exact ⟨w0, List.mem_cons_self _ _, hn, t, ht, hl⟩
          · obtain ⟨w1, hw1, hn1, t1, ht1, hl1⟩ := hfwd n l ⟨w0, hw0r, hn, t, ht, hl⟩
            exact ⟨w1, List.mem_cons_of_mem _ hw1, hn1, t1, ht1, hl1⟩
        · obtain ⟨w1, hw1, hn1, t1, ht1, hl1⟩ := hnew
          exact ⟨w1, List.mem_cons_of_mem _ hw1, hn1, t1, ht1, hl1⟩

theorem insertWAL_ok_prov (dname : String) (dfn li : Nat) :
    ∀ (wals r : List LogicalWAL), insertWAL dname dfn li wals = .ok r →
      ∀ w' ∈ r, ∀ t ∈ w'.segments,
        (w'.numWAL = dfn ∧ t = ⟨li, dname⟩) ∨
        (∃ w0 ∈ wals, w0.numWAL = w'.numWAL ∧ t ∈ w0.segments) := by
  intro wals
  induction wals with
  | nil =>
    intro r h w' hw' t ht
    cases h
    rcases List.mem_cons.mp hw' with rfl | hw2
    · rcases List.mem_cons.mp ht with rfl | ht2
      · exact Or.inl ⟨rfl, rfl⟩
      · cases ht2
    · cases hw2
  | cons w rest ih =>
    intro r h w' hw' t ht
    unfold insertWAL at h
    split_ifs at h with h1 h2
    · cases h
      rcases List.mem_cons.mp hw' with rfl | hw2
      · rcases List.mem_cons.mp ht with rfl | ht2
        · exact Or.inl ⟨rfl, rfl⟩
        · cases ht2
      · exact Or.inr ⟨w', hw2, rfl, ht⟩
    · rcases hr : insertSegment dname li w.segments with d2 | segs <;> rw [hr] at h
      · cases h
      · cases h
        have hmem := insertSegment_ok_mem dname li w.segments segs hr
        rcases List.mem_cons.mp hw' with rfl | hw2
        · rcases (hmem t).mp ht with rfl | ht2
          · exact Or.inl ⟨h2.symm, rfl⟩
          · exact Or.inr ⟨w, List.mem_cons_self _ _, rfl, ht2⟩
        · exact Or.inr ⟨w', List.mem_cons_of_mem _ hw2, rfl, ht⟩
    · rcases hr : insertWAL dname dfn li rest with e | r1 <;> rw [hr] at h
      · cases h
      · cases h
        rcases List.mem_cons.mp hw' with rfl | hw2
        · exact Or.inr ⟨w', List.mem_cons_self _ _, rfl, ht⟩
        · rcases ih r1 hr w' hw2 t ht with hl | ⟨w0, hw0, hn0, ht0⟩
          · exact Or.inl hl
          · exact Or.inr ⟨w0, List.mem_cons_of_mem _ hw0, hn0, ht0⟩

theorem insertWAL_ok_nums (dname : String) (dfn li : Nat) :
    ∀ (wals r : List LogicalWAL), insertWAL dname dfn li wals = .ok r →
      ∀ b ∈ r.map (·.numWAL), b = dfn ∨ b ∈ wals.map (·.numWAL) := by
  intro wals
  induction wals with
  | nil =>
    intro r h b hb
    cases h
    simp at hb
    exact Or.inl hb
  | cons w rest ih =>
    intro r h b hb
    unfold insertWAL at h
    split_ifs at h with h1 h2
    · cases h
      rw [List.map_cons, List.mem_cons] at hb
      rcases hb with rfl | hb2
      · exact Or.inl rfl
      · exact Or.inr hb2
    · rcases hr : insertSegment dname li w.segments with d2 | segs <;> rw [hr] at h
      · cases h
      · cases h
        rw [List.map_cons, List.mem_cons] at hb
        rcases hb with rfl | hb2
        · exact Or.inr (by rw [List.map_cons, List.mem_cons]; exact Or.inl rfl)
        · exact Or.inr (by rw [List.map_cons, List.mem_cons]; exact Or.inr hb2)
    · rcases hr : insertWAL dname dfn li rest with e | r1 <;> rw [hr] at h
      · cases h
      · cases h
        rw [List.map_cons, List.mem_cons] at hb
        rcases hb with rfl | hb2
        · exact Or.inr (by rw [List.map_cons, List.mem_cons]; exact Or.inl rfl)
        · rcases ih r1 hr b hb2 with hd | hm
          · exact Or.inl hd
          · exact Or.inr (by rw [List.map_cons, List.mem_cons]; exact Or.inr hm)

theorem insertWAL_ok_sorted (dname : String) (dfn li : Nat) :
    ∀ (wals r : List LogicalWAL), walsSorted wals → insertWAL dname dfn li wals = .ok r →
      walsSorted r := by
  intro wals
  induction wals with
  | nil =>
    intro r hp h
    cases h
    constructor
    · simp
    · intro w hw
      rcases List.mem_cons.mp hw with rfl | hw2
      · simp
      · cases hw2
  | cons w rest ih =>
    intro r hp h
    obtain ⟨hw, hwsegs, hrest⟩ := walsSorted_cons w rest hp
    unfold insertWAL at h
    split_ifs at h with h1 h2
    · cases h
      constructor
      · rw [List.map_cons, List.pairwise_cons]
        refine ⟨?_, hp.1⟩
        intro b hb
        rw [List.map_cons, List.mem_cons] at hb
        rcases hb with rfl | hb2
        · exact h1
        · exact h1.trans (hw b hb2)
      · intro w' hw'
        rcases List.mem_cons.mp hw' with rfl | hw2
        · simp
        · exact hp.2 w' hw2
    · rcases hr : insertSegment dname li w.segments with d2 | segs <;> rw [hr] at h
      · cases h
      · cases h
        constructor
        · have hnum := hp.1
          simp only [List.map_cons] at hnum ⊢
          exact hnum
        · intro w' hw'
          rcases List.mem_cons.mp hw' with rfl | hw2
          · exact insertSegment_ok_sorted dname li w.segments segs hwsegs hr
          · exact hrest.2 w' hw2
    · rcases hr : insertWAL dname dfn li rest with e | r1 <;> rw [hr] at h
      · cases h
      · cases h
        obtain ⟨hnum1, hsegs1⟩ := ih r1 hrest hr
        constructor
        · rw [List.map_cons, List.pairwise_cons]
          refine ⟨?_, hnum1⟩
          intro b hb
          rcases insertWAL_ok_nums dname dfn li rest r1 hr b hb with rfl | hb2
          · omega
          · exact hw b hb2
        · intro w' hw'
          rcases List.mem_cons.mp hw' with rfl | hw2
          · exact hwsegs
          · exact hsegs1 w' hw2

theorem insertWAL_error (dname : String) (dfn li : Nat) :
    ∀ (wals : List LogicalWAL) (err : ListLogsError),
      insertWAL dname dfn li wals = .error err →
      ∃ d2, err = .duplicate li dfn dname d2 ∧
        ∃ w ∈ wals, w.numWAL = dfn ∧ ∃ t ∈ w.segments, t.logNameIndex = li ∧ t.dir = d2 := by
  intro wals
  induction wals with
  | nil => intro err h; cases h
  | cons w rest ih =>
    intro err h
    unfold insertWAL at h
    split_ifs at h with h1 h2
    · rcases hr : insertSegment dname li w.segments with d2 | segs <;> rw [hr] at h
      · cases h
        obtain ⟨t, ht, h3, h4⟩ := insertSegment_error dname li w.segments d2 hr
        exact ⟨d2, rfl, w, List.mem_cons_self _ _, h2.symm, t, ht, h3, h4⟩
      · cases h
    · rcases hr : insertWAL dname dfn li rest with e | r1 <;> rw [hr] at h
      · cases h
        obtain ⟨d2, he, w1, hw1, hn1, t1, ht1, hl1, hd1⟩ := ih _ hr
        exact ⟨d2, he, w1, List.mem_cons_of_mem _ hw1, hn1, t1, ht1, hl1, hd1⟩
      · cases h

theorem insertWAL_error_of_mem (dname : String) (dfn li : Nat) :
    ∀ (wals : List LogicalWAL), walsSorted wals → pairMem (dfn, li) wals →
      ∃ err, insertWAL dname dfn li wals = .error err := by
  intro wals
  induction wals with
  | nil =>
    intro hp hmem
    obtain ⟨w, hw, -⟩ := hmem
    cases hw
  | cons w rest ih =>
    intro hp hmem
    obtain ⟨hw, hwsegs, hrest⟩ := walsSorted_cons w rest hp
    obtain ⟨w0, hw0, hn, t, ht, hl⟩ := hmem
    rcases List.mem_cons.mp hw0 with rfl | hw0r
    · obtain ⟨d, hd⟩ := insertSegment_error_of_mem dname li w0.segments hwsegs ⟨t, ht, hl⟩
      refine ⟨.duplicate li dfn dname d, ?_⟩
      unfold insertWAL
      rw [if_neg (by omega), if_pos hn.symm, hd]
    · have hlt : w.numWAL < dfn := by
        have hb := hw w0.numWAL (List.mem_map_of_mem _ hw0r)
        omega
      obtain ⟨err, herr⟩ := ih hrest ⟨w0, hw0r, hn, t, ht, hl⟩
      refine ⟨err, ?_⟩
      unfold insertWAL
      rw [if_neg (by omega), if_neg (by omega), herr]


theorem processEntries_ok_sorted (dname : String) :
    ∀ (entries : List FName) (wals r : List LogicalWAL), walsSorted wals →
      processEntries dname entries wals = .ok r → walsSorted r := by
  intro entries
  induction entries with
  | nil =>
    intro wals r hs h
    cases h
    exact hs
  | cons f rest ih =>
    intro wals r hs h
    unfold processEntries at h
    split at h
    · exact ih wals r hs h
    · rename_i dfn li hpf
      split at h
      · rename_i wals1 hi
        exact ih wals1 r (insertWAL_ok_sorted dname dfn li wals wals1 hs hi) h
      · cases h

theorem processEntries_ok_fwd (dname : String) :
    ∀ (entries : List FName) (wals r : List LogicalWAL),
      processEntries dname entries wals = .ok r →
      (∀ n l, pairMem (n, l) wals → pairMem (n, l) r) ∧
      (∀ f ∈ entries, ∀ n l, parseLogFilename f = some (n, l) → pairMem (n, l) r) := by
  intro entries
  induction entries with
  | nil =>
    intro wals r h
    cases h
    exact ⟨fun n l hq => hq, by intro f hf; cases hf⟩
  | cons f rest ih =>
    intro wals r h
    unfold processEntries at h
    split at h
    · rename_i hpf
      obtain ⟨hfwd, hents⟩ := ih wals r h
      refine ⟨hfwd, ?_⟩
      intro f0 hf0 n l hparse
      rcases List.mem_cons.mp hf0 with rfl | hf0r
      · rw [hpf] at hparse
        cases hparse
      · exact hents f0 hf0r n l hparse
    · rename_i dfn li hpf
      split at h
      · rename_i wals1 hi
        obtain ⟨hfwd1, hents1⟩ := ih wals1 r h
        obtain ⟨hifwd, hinew⟩ := insertWAL_ok_fwd dname dfn li wals wals1 hi
        refine ⟨fun n l hq => hfwd1 n l (hifwd n l hq), ?_⟩
        intro f0 hf0 n l hparse
        rcases List.mem_cons.mp hf0 with rfl | hf0r
        · rw [hpf] at hparse
          injection hparse with hpair
          cases hpair
          exact hfwd1 _ _ hinew
        · exact hents1 f0 hf0r n l hparse
      · cases h

theorem processEntries_not_ok_of_dup (dname : String) :
    ∀ (entries : List FName) (wals : List LogicalWAL) (n l : Nat),
      walsSorted wals → pairMem (n, l) wals →
      (∃ f ∈ entries, parseLogFilename f = some (n, l)) →
      ∀ r, processEntries dname entries wals ≠ .ok r := by
  intro entries
  induction entries with
  | nil =>
    intro wals n l hs hmem hrec r
    obtain ⟨f, hf, -⟩ := hrec
    cases hf
  | cons f rest ih =>
    intro wals n l hs hmem hrec r hcontra
    unfold processEntries at hcontra
    obtain ⟨f0, hf0, hparse⟩ := hrec
    split at hcontra
    · rename_i hpf
      rcases List.mem_cons.mp hf0 with rfl | hf0r
      · rw [hpf] at hparse
        cases hparse
      · exact ih wals n l hs hmem ⟨f0, hf0r, hparse⟩ r hcontra
    · rename_i dfn li hpf
      split at hcontra
      · rename_i wals1 hi
        rcases List.mem_cons.mp hf0 with rfl | hf0r
        · rw [hpf] at hparse
          injection hparse with hpair
          cases hpair
          obtain ⟨err, herr⟩ := insertWAL_error_of_mem dname _ _ wals hs hmem
          rw [herr] at hi
          cases hi
        · exact ih wals1 n l (insertWAL_ok_sorted dname dfn li wals wals1 hs hi)
            ((insertWAL_ok_fwd dname dfn li wals wals1 hi).1 n l hmem)
            ⟨f0, hf0r, hparse⟩ r hcontra
      · cases hcontra

theorem processEntries_ok_prov (dname : String) (P : Nat → Nat → String → Prop) :
    ∀ (entries : List FName) (wals r : List LogicalWAL),
      (∀ w ∈ wals, ∀ t ∈ w.segments, P w.numWAL t.logNameIndex t.dir) →
      (∀ f ∈ entries, ∀ n l, parseLogFilename f = some (n, l) → P n l dname) →
      processEntries dname entries wals = .ok r →
      ∀ w ∈ r, ∀ t ∈ w.segments, P w.numWAL t.logNameIndex t.dir := by
  intro entries
  induction entries with
  | nil =>
    intro wals r hwals hents h
    cases h
    exact hwals
  | cons f rest ih =>
    intro wals r hwals hents h
    unfold processEntries at h
    split at h
    · exact ih wals r hwals (fun f0 hf0 => hents f0 (List.mem_cons_of_mem _ hf0)) h
    · rename_i dfn li hpf
      split at h
      · rename_i wals1 hi
        refine ih wals1 r ?_ (fun f0 hf0 => hents f0 (List.mem_cons_of_mem _ hf0)) h
        intro w hw t ht
        rcases insertWAL_ok_prov dname dfn li wals wals1 hi w hw t ht with
          ⟨hn, rfl⟩ | ⟨w0, hw0, hn0, ht0⟩
        · rw [hn]
          exact hents f (List.mem_cons_self _ _) dfn li hpf
        · rw [← hn0]
          exact hwals w0 hw0 t ht0
      · cases h

theorem processEntries_error_naming (dname : String) (P : Nat → Nat → String → Prop) :
    ∀ (entries : List FName) (wals : List LogicalWAL) (err : ListLogsError),
      (∀ w ∈ wals, ∀ t ∈ w.segments, P w.numWAL t.logNameIndex t.dir) →
      (∀ f ∈ entries, ∀ n l, parseLogFilename f = some (n, l) → P n l dname) →
      processEntries dname entries wals = .error err →
      ∃ li n d2, err = .duplicate li n dname d2 ∧ P n li dname ∧ P n li d2 := by
  intro entries
  induction entries with
  | nil =>
    intro wals err hwals hents h
    cases h
  | cons f rest ih =>
    intro wals err hwals hents h
    unfold processEntries at h
    split at h
    · exact ih wals err hwals (fun f0 hf0 => hents f0 (List.mem_cons_of_mem _ hf0)) h
    · rename_i dfn li hpf
      split at h
      · rename_i wals1 hi
        refine ih wals1 err ?_ (fun f0 hf0 => hents f0 (List.mem_cons_of_mem _ hf0)) h
        intro w hw t ht
        rcases insertWAL_ok_prov dname dfn li wals wals1 hi w hw t ht with
          ⟨hn, rfl⟩ | ⟨w0, hw0, hn0, ht0⟩
        · rw [hn]
          exact hents f (List.mem_cons_self _ _) dfn li hpf
        · rw [← hn0]
          exact hwals w0 hw0 t ht0
      · rename_i e hi
        cases h
        obtain ⟨d2, he, w1, hw1, hn1, t1, ht1, hl1, hd1⟩ :=
          insertWAL_error dname dfn li wals _ hi
        refine ⟨li, dfn, d2, he, hents f (List.mem_cons_self _ _) dfn li hpf, ?_⟩
        have hp := hwals w1 hw1 t1 ht1
        rw [hn1, hl1, hd1] at hp
        exact hp

theorem listLogsDirs_ok_sorted :
    ∀ (dirs : List Dir) (wals r : List LogicalWAL), walsSorted wals →
      listLogsDirs dirs wals = .ok r → walsSorted r := by
  intro dirs
  induction dirs with
  | nil =>
    intro wals r hs h
    cases h
    exact hs
  | cons d rest ih =>
    intro wals r hs h
    unfold listLogsDirs at h
    split_ifs at h
    split at h
    · rename_i wals1 hpe
      exact ih wals1 r (processEntries_ok_sorted d.dirname d.entries wals wals1 hs hpe) h
    · cases h

theorem listLogsDirs_ok_fwd :
    ∀ (dirs : List Dir) (wals r : List LogicalWAL),
      listLogsDirs dirs wals = .ok r →
      (∀ n l, pairMem (n, l) wals → pairMem (n, l) r) ∧
      (∀ d ∈ dirs, ∀ f ∈ d.entries, ∀ n l, parseLogFilename f = some (n, l) →
        pairMem (n, l) r) := by
  intro dirs
  induction dirs with
  | nil =>
    intro wals r h
    cases h
    exact ⟨fun n l hq => hq, by intro d hd; cases hd⟩
  | cons d rest ih =>
    intro wals r h
    unfold listLogsDirs at h
    split_ifs at h
    split at h
    · rename_i wals1 hpe
      obtain ⟨hfwd1, hdirs1⟩ := ih wals1 r h
      obtain ⟨hpfwd, hpents⟩ := processEntries_ok_fwd d.dirname d.entries wals wals1 hpe
      constructor
      · exact fun n l hq => hfwd1 n l (hpfwd n l hq)
      · intro d0 hd0 f hf n l hparse
        rcases List.mem_cons.mp hd0 with rfl | hd0r
        · exact hfwd1 n l (hpents f hf n l hparse)
        · exact hdirs1 d0 hd0r f hf n l hparse
    · cases h

theorem listLogsDirs_cons (d : Dir) (rest : List Dir) (wals : List LogicalWAL) :
    listLogsDirs (d :: rest) wals =
      if d.listFails then .error (.readDir d.dirname)
      else
        match processEntries d.dirname d.entries wals with
        | .ok wals1 => listLogsDirs rest wals1
        | .error e => .error e := rfl

theorem listLogsDirs_append :
    ∀ (xs ys : List Dir) (wals : List LogicalWAL),
      listLogsDirs (xs ++ ys) wals =
        match listLogsDirs xs wals with
        | .ok w1 => listLogsDirs ys w1
        | .error e => .error e := by
  intro xs
  induction xs with
  | nil => intro ys wals; rfl
  | cons d rest ih =>
    intro ys wals
    show listLogsDirs (d :: (rest ++ ys)) wals = _
    rw [listLogsDirs_cons d (rest ++ ys) wals, listLogsDirs_cons d rest wals]
    split_ifs with hf
    · rfl
    · rcases hpe : processEntries d.dirname d.entries wals with e | wals1
      · rfl
      · dsimp only
        exact ih ys wals1

theorem listLogsDirs_not_ok_of_dup :
    ∀ (dirs : List Dir) (wals : List LogicalWAL) (n l : Nat),
      walsSorted wals → pairMem (n, l) wals →
      (∃ d ∈ dirs, ∃ f ∈ d.entries, parseLogFilename f = some (n, l)) →
      ∀ r, listLogsDirs dirs wals ≠ .ok r := by
  intro dirs
  induction dirs with
  | nil =>
    intro wals n l hs hmem hrec r
    obtain ⟨d, hd, -⟩ := hrec
    cases hd
  | cons d rest ih =>
    intro wals n l hs hmem hrec r hcontra
    unfold listLogsDirs at hcontra
    split_ifs at hcontra
    obtain ⟨d0, hd0, f, hf, hparse⟩ := hrec
    split at hcontra
    · rename_i wals1 hpe
      rcases List.mem_cons.mp hd0 with rfl | hd0r
      · exact processEntries_not_ok_of_dup d0.dirname d0.entries wals n l hs hmem
          ⟨f, hf, hparse⟩ wals1 hpe
      · exact ih wals1 n l (processEntries_ok_sorted d.dirname d.entries wals wals1 hs hpe)
          ((processEntries_ok_fwd d.dirname d.entries wals wals1 hpe).1 n l hmem)
          ⟨d0, hd0r, f, hf, hparse⟩ r hcontra
    · cases hcontra

theorem listLogsDirs_error_naming (dirs : List Dir) :
    ∀ (dirs0 : List Dir) (wals : List LogicalWAL) (err : ListLogsError),
      (∀ d ∈ dirs0, d ∈ dirs) →
      (∀ d ∈ dirs0, d.listFails = false) →
      (∀ w ∈ wals, ∀ t ∈ w.segments,
        ∃ d ∈ dirs, d.dirname = t.dir ∧ recognizes d (w.numWAL, t.logNameIndex)) →
      listLogsDirs dirs0 wals = .error err →
      ∃ li n d1 d2, err = .duplicate li n d1 d2 ∧
        (∃ dX ∈ dirs, dX.dirname = d1 ∧ recognizes dX (n, li)) ∧
        (∃ dY ∈ dirs, dY.dirname = d2 ∧ recognizes dY (n, li)) := by
  intro dirs0
  induction dirs0 with
  | nil =>
    intro wals err hsub hnf hprov h
    cases h
  | cons d rest ih =>
    intro wals err hsub hnf hprov h
    unfold listLogsDirs at h
    rw [if_neg (by rw [hnf d (List.mem_cons_self _ _)]; exact Bool.false_ne_true)] at h
    have hents : ∀ f ∈ d.entries, ∀ n l, parseLogFilename f = some (n, l) →
        ∃ dX ∈ dirs, dX.dirname = d.dirname ∧ recognizes dX (n, l) := by
      intro f hf n l hparse
      exact ⟨d, hsub d (List.mem_cons_self _ _), rfl, f, hf, hparse⟩
    split at h
    · rename_i wals1 hpe
      refine ih wals1 err (fun d0 hd0 => hsub d0 (List.mem_cons_of_mem _ hd0))
        (fun d0 hd0 => hnf d0 (List.mem_cons_of_mem _ hd0)) ?_ h
      exact processEntries_ok_prov d.dirname
        (fun n l dir => ∃ dX ∈ dirs, dX.dirname = dir ∧ recognizes dX (n, l))
        d.entries wals wals1 hprov hents hpe
    · rename_i e hpe
      cases h
      obtain ⟨li, n, d2, he, hp1, hp2⟩ := processEntries_error_naming d.dirname
        (fun n l dir => ∃ dX ∈ dirs, dX.dirname = dir ∧ recognizes dX (n, l))
        d.entries wals _ hprov hents hpe
      exact ⟨li, n, d.dirname, d2, he, hp1, hp2⟩

/-- C7: every successful listLogs result is ordered by strictly
increasing WAL number, and within each logical WAL the segments are
ordered by strictly increasing logNameIndex (so no two segments of a WAL
share an index, and adjacent indices satisfy
`segment_index[i] < segment_index[i+1]`). -/
theorem C7_listLogs_sorted (dirs : List Dir) (wals : List LogicalWAL)
    (h : listLogs dirs = .ok wals) :
    List.Pairwise (· < ·) (wals.map (·.numWAL)) ∧
    ∀ w ∈ wals, List.Pairwise (· < ·) (w.segments.map (·.logNameIndex)) := by
  have hs : walsSorted [] := ⟨List.Pairwise.nil, by intro w hw; cases hw⟩
  exact listLogsDirs_ok_sorted dirs [] wals hs h

/-- Witness for C7: a two-directory layout with interleaved WAL numbers
and segment indices produces a sorted result. -/
theorem C7_witness :
    ∃ wals,
      listLogs [⟨"A", [.wal 9 1, .other "x", .wal 7 0], false⟩,
                ⟨"B", [.wal 7 1, .wal 9 0], false⟩] = .ok wals ∧
      List.Pairwise (· < ·) (wals.map (·.numWAL)) ∧
      ∀ w ∈ wals, List.Pairwise (· < ·) (w.segments.map (·.logNameIndex)) := by
  have hok : listLogs [⟨"A", [.wal 9 1, .other "x", .wal 7 0], false⟩,
      ⟨"B", [.wal 7 1, .wal 9 0], false⟩] =
      .ok [⟨7, [⟨0, "A"⟩, ⟨1, "B"⟩]⟩, ⟨9, [⟨0, "B"⟩, ⟨1, "A"⟩]⟩] := by decide
  exact ⟨[⟨7, [⟨0, "A"⟩, ⟨1, "B"⟩]⟩, ⟨9, [⟨0, "B"⟩, ⟨1, "A"⟩]⟩], hok,
    (C7_listLogs_sorted _ _ hok).1, (C7_listLogs_sorted _ _ hok).2⟩

/-- C6: whenever the same `(num_wal, segment_index)` pair is recognized
in two of the (listable) directories, listLogs fails with a duplicate
error, and both directory names carried by the error belong to
directories of the list whose entries recognize the duplicated pair. -/
theorem C6_duplicate_segment (dirs pre mid post : List Dir) (dA dB : Dir) (n li : Nat)
    (hsplit : dirs = pre ++ dA :: mid ++ dB :: post)
    (hnofail : ∀ d ∈ dirs, d.listFails = false)
    (hA : recognizes dA (n, li)) (hB : recognizes dB (n, li)) :
    ∃ li2 n2 d1 d2, listLogs dirs = .error (.duplicate li2 n2 d1 d2) ∧
      (∃ dX ∈ dirs, dX.dirname = d1 ∧ recognizes dX (n2, li2)) ∧
      (∃ dY ∈ dirs, dY.dirname = d2 ∧ recognizes dY (n2, li2)) := by
  have hsplit2 : dirs = (pre ++ dA :: mid) ++ dB :: post := by
    rw [hsplit]
  have hnotok : ∀ r, listLogs dirs ≠ .ok r := by
    intro r hok
    unfold listLogs at hok
    rw [hsplit2, listLogsDirs_append] at hok
    rcases h1 : listLogsDirs (pre ++ dA :: mid) [] with e | w1 <;> rw [h1] at hok
    · cases hok
    · dsimp only at hok
      have hs1 : walsSorted w1 := listLogsDirs_ok_sorted _ []  w1
        ⟨List.Pairwise.nil, by intro w hw; cases hw⟩ h1
      obtain ⟨f, hf, hparse⟩ := hA
      have hmem1 : pairMem (n, li) w1 :=
        (listLogsDirs_ok_fwd _ [] w1 h1).2 dA
          (by rw [List.mem_append]; exact Or.inr (List.mem_cons_self _ _)) f hf n li hparse
      rw [listLogsDirs_cons] at hok
      rw [if_neg (by
        rw [hnofail dB (by rw [hsplit2, List.mem_append]
                           exact Or.inr (List.mem_cons_self _ _))]
        exact Bool.false_ne_true)] at hok
      rcases hpe : processEntries dB.dirname dB.entries w1 with e | w2 <;> rw [hpe] at hok
      · cases hok
      · obtain ⟨f2, hf2, hparse2⟩ := hB
        exact processEntries_not_ok_of_dup dB.dirname dB.entries w1 n li hs1 hmem1
          ⟨f2, hf2, hparse2⟩ w2 hpe
  rcases hres : listLogs dirs with err | r
  · obtain ⟨li2, n2, d1, d2, herr, hn1, hn2⟩ := listLogsDirs_error_naming dirs dirs [] err
      (fun d hd => hd) (fun d hd => hnofail d hd) (by intro w hw; cases hw) hres
    subst herr
    exact ⟨li2, n2, d1, d2, rfl, hn1, hn2⟩
  · exact absurd hres (hnotok r)

/-- Witness for C6: two directories both listing the segment filename
for WAL 9, index 1; listLogs fails naming directory B (the scanner that
hit the duplicate) and directory A (holding the already-recorded
segment). -/
theorem C6_witness :
    listLogs [⟨"A", [.wal 9 1], false⟩, ⟨"B", [.wal 9 1], false⟩] =
      .error (.duplicate 1 9 "B" "A") ∧
    (∃ li2 n2 d1 d2,
      listLogs [⟨"A", [.wal 9 1], false⟩, ⟨"B", [.wal 9 1], false⟩] =
        .error (.duplicate li2 n2 d1 d2) ∧
      (∃ dX ∈ [(⟨"A", [.wal 9 1], false⟩ : Dir), ⟨"B", [.wal 9 1], false⟩],
        dX.dirname = d1 ∧ recognizes dX (n2, li2)) ∧
      (∃ dY ∈ [(⟨"A", [.wal 9 1], false⟩ : Dir), ⟨"B", [.wal 9 1], false⟩],
        dY.dirname = d2 ∧ recognizes dY (n2, li2))) := by
  refine ⟨by decide, ?_⟩
  exact C6_duplicate_segment
    [⟨"A", [.wal 9 1], false⟩, ⟨"B", [.wal 9 1], false⟩] [] [] []
    ⟨"A", [.wal 9 1], false⟩ ⟨"B", [.wal 9 1], false⟩ 9 1 rfl
    (by decide) (by decide) (by decide)
